import Mathlib

/-!
# Verification of the pyS15 timestamp-coincidence core

Shallow embedding of the coincidence-counting algorithms of the repository:

* `_delta_loop` / `delta_loop` — sliding-cursor pairwise time-difference
  histogram (Cython source `delta_loop.pyx`, identical copies in the
  repository).
* `_delta_loop_ts` / `delta_loop_ts` — the masked variant that additionally
  returns participation masks for both input sequences.
* `_cond_delta_loop` — the triple-stream conditional histogram (two scanning
  passes producing four histograms).
* `get_window4coincs`, `count_4coinc`, `count_4coinc_indiv` — the 4-fold
  coincidence counters (single interleaved stream, and four per-channel
  streams merged through a priority queue).

Timestamps of the histogram functions are C doubles in the source; they are
modelled as exact rationals (`ℚ`).  Timestamps of the coincidence counters
are C `unsigned long long`, modelled as `ℕ` with the source's unsigned
subtraction `t - coincw` made explicit modulo `2 ^ 64`.  Histogram cells are
`ℕ`; the coincidence totals are `ℤ` (the combinatorial products of the C
`int` accumulator, with the 32-bit interpretation of the returned `int`
modelled separately by `toInt32`).
-/

namespace PyS15

/-! ## Pairwise histogram `_delta_loop`

Source (both copies are identical):

```
for it_b in range(l_t1):
    b = t1[it_b]
    n = 0
    idx = idx2
    while True:
        if (idx + n) >= l_t2:
            break
        c = t2[idx + n]
        n += 1
        if c < b:
            idx2 = idx + n
            continue
        else:
            k = c - b
            if k >= max_range:
                break
            histogram[int(k // bin_width)] += 1
return histogram
```

The inner `while` is modelled by `scan`, structurally recursing over the
suffix `t2.drop idx2`; `j` is the absolute position `idx + n` of the element
`c` under scrutiny, so the assignment `idx2 = idx + n` (performed after
`n += 1`) sets the cursor to `j + 1`.
-/

/-- `histogram[i] += 1`: one unchecked histogram increment of the source
(the Cython code is compiled with `boundscheck(False)`; indices actually
reached are proved in range separately, see `bumpChk`). -/
def bump (hist : List ℕ) (i : ℕ) : List ℕ :=
  hist.set i (hist.getD i 0 + 1)

/-- `int(k // bin_width)` of the source, as an integer (the increments that
the code performs always have `0 ≤ k`, see `scanRec_nonneg`). -/
def binIdxZ (k bw : ℚ) : ℤ := Int.floor (k / bw)

/-- `int(k // bin_width)` of the source, as the `ℕ` index actually used by
`bump`. -/
def binIdx (k bw : ℚ) : ℕ := (binIdxZ k bw).toNat

/-- Inner `while True` loop of `_delta_loop`.  `b` is the current `t1`
element, `maxR = bins * bin_width`, the list argument is the unread suffix of
`t2`, `j` is the absolute index of its head in `t2`, and `idx2` is the cached
cursor.  Returns the updated cursor and histogram. -/
def scan (b maxR bw : ℚ) : List ℚ → ℕ → ℕ → List ℕ → ℕ × List ℕ
  | [], _, idx2, hist => (idx2, hist)
  | c :: rest, j, idx2, hist =>
    if c < b then
      scan b maxR bw rest (j + 1) (j + 1) hist
    else if maxR ≤ c - b then
      (idx2, hist)
    else
      scan b maxR bw rest (j + 1) idx2 (bump hist (binIdx (c - b) bw))

/-- Outer `for it_b in range(l_t1)` loop of `_delta_loop`: the cursor `idx2`
is threaded through the iterations, each of which scans `t2` starting from
position `idx2`. -/
def delta_outer (t2 : List ℚ) (maxR bw : ℚ) : List ℚ → ℕ → List ℕ → List ℕ
  | [], _, hist => hist
  | b :: t1r, idx2, hist =>
    let r := scan b maxR bw (t2.drop idx2) idx2 idx2 hist
    delta_outer t2 maxR bw t1r r.1 r.2

/-- `_delta_loop(t1, t2, bins, bin_width, l_t1, l_t2)` of the source. -/
def _delta_loop (t1 t2 : List ℚ) (bins : ℕ) (bw : ℚ) : List ℕ :=
  delta_outer t2 (bins * bw) bw t1 0 (List.replicate bins 0)

/-- `delta_loop(t1, t2, bins, bin_width_ns)` of part_003 (lines 127–148):
this variant of the wrapper only computes the lengths and calls
`_delta_loop`. -/
def delta_loop (t1 t2 : List ℚ) (bins : ℕ) (bw : ℚ) : List ℕ :=
  _delta_loop t1 t2 bins bw

/-- `delta_loop(t1, t2, bins, bin_width_ns)` of part_002 (lines 538–562):
this variant first tests `isinstance(t1[0], np.int64)` — an unconditional
read of `t1[0]` that raises `IndexError` when `t1` is empty — and on an
int64 input converts both arrays to float64 before calling `_delta_loop`.
The conversion is the identity on the timestamp values as modelled
(exact rationals), so the embedding keeps exactly the failing read:
`none` iff `t1` is empty. -/
def delta_loop_i64 (t1 t2 : List ℚ) (bins : ℕ) (bw : ℚ) :
    Option (List ℕ) :=
  match t1 with
  | [] => none
  | _ :: _ => some (_delta_loop t1 t2 bins bw)

/-! ### Recording traces

`scanRec` lists the `(j, k)` pairs — position in `t2` and time difference —
for which `scan` performs a histogram increment, and `scanCur` computes the
cursor `scan` returns; both follow exactly the branch structure of `scan`.
`outerRec` strings the per-`b` traces together, tagging them with the index
`i` of `b` in `t1`. -/

/-- Positions/time differences recorded by `scan`. -/
def scanRec (b maxR : ℚ) : List ℚ → ℕ → List (ℕ × ℚ)
  | [], _ => []
  | c :: rest, j =>
    if c < b then
      scanRec b maxR rest (j + 1)
    else if maxR ≤ c - b then
      []
    else
      (j, c - b) :: scanRec b maxR rest (j + 1)

/-- Cursor returned by `scan`. -/
def scanCur (b maxR : ℚ) : List ℚ → ℕ → ℕ → ℕ
  | [], _, idx2 => idx2
  | c :: rest, j, idx2 =>
    if c < b then
      scanCur b maxR rest (j + 1) (j + 1)
    else if maxR ≤ c - b then
      idx2
    else
      scanCur b maxR rest (j + 1) idx2

/-- Fold a list of recorded `(j, k)` pairs into the histogram. -/
def applyRecs (bw : ℚ) (hist : List ℕ) (recs : List (ℕ × ℚ)) : List ℕ :=
  recs.foldl (fun h p => bump h (binIdx p.2 bw)) hist

/-- Triples `(i, j, k)` recorded over the whole outer loop. -/
def outerRec (t2 : List ℚ) (maxR : ℚ) : List ℚ → ℕ → ℕ → List (ℕ × ℕ × ℚ)
  | [], _, _ => []
  | b :: t1r, i, idx2 =>
    (scanRec b maxR (t2.drop idx2) idx2).map (fun p => (i, p.1, p.2)) ++
      outerRec t2 maxR t1r (i + 1) (scanCur b maxR (t2.drop idx2) idx2 idx2)

/-- Fold recorded triples into the histogram. -/
def applyRecs3 (bw : ℚ) (hist : List ℕ) (recs : List (ℕ × ℕ × ℚ)) : List ℕ :=
  recs.foldl (fun h p => bump h (binIdx p.2.2 bw)) hist

/-! ### Brute-force reference

The brute-force cross-correlation: every pair `(i, j)` with
`t1[i] ≤ t2[j] < t1[i] + maxR` is recorded. -/

/-- All `(i, j, t2[j] - t1[i])` triples with `t1[i] ≤ t2[j]` and
`t2[j] - t1[i] < maxR`, in lexicographic order of `(i, j)`; `i` counts from
the given start index. -/
def bruteAux (t2 : List ℚ) (maxR : ℚ) : List ℚ → ℕ → List (ℕ × ℕ × ℚ)
  | [], _ => []
  | b :: t1r, i =>
    (t2.enum.filterMap fun cj =>
      if b ≤ cj.2 ∧ cj.2 - b < maxR then some (i, cj.1, cj.2 - b) else none) ++
      bruteAux t2 maxR t1r (i + 1)

/-- All in-window causally-forward pairs of the two sequences. -/
def bruteRec (t1 t2 : List ℚ) (maxR : ℚ) : List (ℕ × ℕ × ℚ) :=
  bruteAux t2 maxR t1 0

/-- Brute-force histogram: bin every causally-forward pair inside the window. -/
def bruteHist (t1 t2 : List ℚ) (bins : ℕ) (bw : ℚ) : List ℕ :=
  applyRecs3 bw (List.replicate bins 0) (bruteRec t1 t2 (bins * bw))

/-! ### Basic lemmas about the traces -/

theorem scan_eq_rec (b maxR bw : ℚ) :
    ∀ (rest : List ℚ) (j idx2 : ℕ) (hist : List ℕ),
      scan b maxR bw rest j idx2 hist =
        (scanCur b maxR rest j idx2, applyRecs bw hist (scanRec b maxR rest j))
  | [], _, _, _ => rfl
  | c :: rest, j, idx2, hist => by
    by_cases h1 : c < b
    · simp only [scan, scanCur, scanRec, if_pos h1]
      exact scan_eq_rec b maxR bw rest (j + 1) (j + 1) hist
    · by_cases h2 : maxR ≤ c - b
      · simp only [scan, scanCur, scanRec, if_neg h1, if_pos h2, applyRecs,
          List.foldl_nil]
      · simp only [scan, scanCur, scanRec, if_neg h1, if_neg h2, applyRecs,
          List.foldl_cons]
        exact scan_eq_rec b maxR bw rest (j + 1) idx2 _

theorem delta_outer_eq_rec (t2 : List ℚ) (maxR bw : ℚ) :
    ∀ (t1 : List ℚ) (i idx2 : ℕ) (hist : List ℕ),
      delta_outer t2 maxR bw t1 idx2 hist =
        applyRecs3 bw hist (outerRec t2 maxR t1 i idx2)
  | [], _, _, _ => rfl
  | b :: t1r, i, idx2, hist => by
    simp only [delta_outer, outerRec, scan_eq_rec, applyRecs3, List.foldl_append]
    rw [delta_outer_eq_rec t2 maxR bw t1r (i + 1) _ _]
    congr 1
    simp only [applyRecs, applyRecs3, List.foldl_map]

/-! ### Characterisation on sorted inputs

On an ascending `t2`-suffix the scan records exactly the in-window entries,
and the cursor only ever skips entries that are `< b`. -/

/-- Elements up to and including position `j` are bounded by the element at
position `j`, in a sorted list. -/
theorem le_of_mem_take_succ {t2 : List ℚ} (h2 : t2.Sorted (· ≤ ·)) {j : ℕ}
    {c : ℚ} {r : List ℚ} (hdrop : t2.drop j = c :: r) :
    ∀ x ∈ t2.take (j + 1), x ≤ c := by
  have hget : t2[j]? = some c := by
    have h := List.getElem?_drop t2 j 0
    rw [hdrop] at h
    simpa using h.symm
  have htake : t2.take (j + 1) = t2.take j ++ [c] := by
    rw [List.take_succ, hget]
    rfl
  have hpw : ∀ x ∈ t2.take j, ∀ y ∈ t2.drop j, x ≤ y := by
    have := (@List.pairwise_append _ _ (t2.take j) (t2.drop j)).1
      (by rw [List.take_append_drop]; exact h2)
    exact this.2.2
  intro x hx
  rw [htake, List.mem_append] at hx
  rcases hx with hx | hx
  · exact hpw x hx c (by rw [hdrop]; exact List.mem_cons_self _ _)
  · simp only [List.mem_singleton] at hx
    exact le_of_eq hx

theorem drop_succ_of_drop_cons {t2 : List ℚ} {j : ℕ} {c : ℚ} {r : List ℚ}
    (hdrop : t2.drop j = c :: r) : t2.drop (j + 1) = r := by
  rw [← List.tail_drop, hdrop]
  rfl

/-- On a sorted suffix, `scanRec` records exactly the entries `c` with
`b ≤ c` and `c - b < maxR`, with their absolute positions. -/
theorem scanRec_sorted (b maxR : ℚ) :
    ∀ (rest : List ℚ), rest.Sorted (· ≤ ·) → ∀ (j : ℕ),
      scanRec b maxR rest j =
        (rest.enumFrom j).filterMap fun cj =>
          if b ≤ cj.2 ∧ cj.2 - b < maxR then some (cj.1, cj.2 - b) else none
  | [], _, _ => rfl
  | c :: rest, hs, j => by
    rw [List.sorted_cons] at hs
    by_cases h1 : c < b
    · simp only [scanRec, if_pos h1, List.enumFrom_cons, List.filterMap_cons]
      rw [if_neg (by push_neg; intro hbc; exact absurd hbc (not_le.2 h1))]
      exact scanRec_sorted b maxR rest hs.2 (j + 1)
    · by_cases h2 : maxR ≤ c - b
      · simp only [scanRec, if_neg h1, if_pos h2, List.enumFrom_cons,
          List.filterMap_cons]
        rw [if_neg (by push_neg; intro _; linarith)]
        symm
        rw [List.filterMap_eq_nil_iff]
        rintro ⟨j', c'⟩ hcj
        obtain ⟨-, -, hc'⟩ := List.mem_enumFrom hcj
        have hc2 : c ≤ c' := by
          rw [hc']
          exact hs.1 _ (List.getElem_mem _)
        rw [if_neg]
        push_neg
        intro _
        simp only
        linarith
      · push_neg at h2
        simp only [scanRec, if_neg h1, if_neg (not_le.2 h2), List.enumFrom_cons,
          List.filterMap_cons]
        rw [if_pos ⟨not_lt.1 h1, h2⟩]
        rw [scanRec_sorted b maxR rest hs.2 (j + 1)]

/-- The cursor returned by `scan` still only hides entries `< b`, and stays
within the bounds of `t2`. -/
theorem scanCur_sorted {t2 : List ℚ} (h2 : t2.Sorted (· ≤ ·)) (b maxR : ℚ) :
    ∀ (rest : List ℚ) (j idx2 : ℕ), rest = t2.drop j → idx2 ≤ t2.length →
      (∀ x ∈ t2.take idx2, x < b) →
      (∀ x ∈ t2.take (scanCur b maxR rest j idx2), x < b) ∧
        scanCur b maxR rest j idx2 ≤ t2.length
  | [], _, idx2, _, hle, hinv => ⟨hinv, hle⟩
  | c :: rest, j, idx2, hdrop, hle, hinv => by
    have hjlt : j < t2.length := by
      by_contra hj
      push_neg at hj
      rw [List.drop_eq_nil_iff.2 hj] at hdrop
      exact List.cons_ne_nil _ _ hdrop
    have hdrop' : t2.drop (j + 1) = rest := drop_succ_of_drop_cons hdrop.symm
    by_cases h1 : c < b
    · simp only [scanCur, if_pos h1]
      exact scanCur_sorted h2 b maxR rest (j + 1) (j + 1) hdrop'.symm hjlt
        (fun x hx => lt_of_le_of_lt (le_of_mem_take_succ h2 hdrop.symm x hx) h1)
    · by_cases hm : maxR ≤ c - b
      · simp only [scanCur, if_neg h1, if_pos hm]
        exact ⟨hinv, hle⟩
      · simp only [scanCur, if_neg h1, if_neg hm]
        exact scanCur_sorted h2 b maxR rest (j + 1) idx2 hdrop'.symm hle hinv

/-- On sorted input, the scan of the suffix `t2.drop idx2` — tagged with the
outer index `i` — records exactly the brute-force in-window pairs over the
*whole* of `t2` (the hidden prefix holds no matches). -/
theorem scanRec_tagged_eq {t2 : List ℚ} (h2 : t2.Sorted (· ≤ ·)) (b maxR : ℚ)
    (i idx2 : ℕ) (hle : idx2 ≤ t2.length)
    (hinv : ∀ x ∈ t2.take idx2, x < b) :
    (scanRec b maxR (t2.drop idx2) idx2).map (fun p => (i, p.1, p.2)) =
      t2.enum.filterMap fun cj =>
        if b ≤ cj.2 ∧ cj.2 - b < maxR then some (i, cj.1, cj.2 - b)
        else none := by
  have hsdrop : (t2.drop idx2).Sorted (· ≤ ·) :=
    h2.sublist (List.drop_sublist idx2 t2)
  rw [scanRec_sorted b maxR (t2.drop idx2) hsdrop idx2]
  have hsplit : t2.enum = (t2.take idx2).enum ++
      List.enumFrom idx2 (t2.drop idx2) := by
    have hlen : (t2.take idx2).length = idx2 := by
      rw [List.length_take]
      exact Nat.min_eq_left hle
    conv_lhs => rw [List.enum, ← List.take_append_drop idx2 t2,
      List.enumFrom_append]
    rw [hlen, Nat.zero_add]
    rfl
  rw [hsplit, List.filterMap_append, List.map_filterMap]
  have hnil : ((t2.take idx2).enum.filterMap fun cj =>
      if b ≤ cj.2 ∧ cj.2 - b < maxR then some (i, cj.1, cj.2 - b)
      else none) = [] := by
    rw [List.filterMap_eq_nil_iff]
    rintro ⟨q, x⟩ hq
    obtain ⟨-, -, hx⟩ := List.mem_enumFrom hq
    have hxb : x < b := hinv x (hx ▸ List.getElem_mem _)
    rw [if_neg]
    push_neg
    intro hbx
    exact absurd hbx (not_le.2 hxb)
  rw [hnil, List.nil_append]
  apply List.filterMap_congr
  intro cj _
  by_cases hc : b ≤ cj.2 ∧ cj.2 - b < maxR
  · rw [if_pos hc, if_pos hc, Option.map_some']
  · rw [if_neg hc, if_neg hc, Option.map_none']

/-- On sorted inputs, the cursor-cached outer loop records exactly the
brute-force set of in-window pairs. -/
theorem outerRec_eq_bruteAux {t2 : List ℚ} (maxR : ℚ) (h2 : t2.Sorted (· ≤ ·)) :
    ∀ (t1 : List ℚ), t1.Sorted (· ≤ ·) → ∀ (i idx2 : ℕ), idx2 ≤ t2.length →
      (∀ x ∈ t2.take idx2, ∀ b ∈ t1, x < b) →
      outerRec t2 maxR t1 i idx2 = bruteAux t2 maxR t1 i
  | [], _, _, _, _, _ => rfl
  | b :: t1r, h1, i, idx2, hle, hinv => by
    rw [List.sorted_cons] at h1
    have hcur := scanCur_sorted h2 b maxR (t2.drop idx2) idx2 idx2 rfl hle
      (fun x hx => hinv x hx b (List.mem_cons_self _ _))
    simp only [outerRec, bruteAux]
    rw [outerRec_eq_bruteAux maxR h2 t1r h1.2 (i + 1) _ hcur.2
      (fun x hx b' hb' => lt_of_lt_of_le (hcur.1 x hx) (h1.1 b' hb'))]
    congr 1
    exact scanRec_tagged_eq h2 b maxR i idx2 hle
      (fun x hx => hinv x hx b (List.mem_cons_self _ _))

/-! ## Claim theorems for the pairwise histogram -/

/-- **C1, counterexample.**  The claim states that for each `t1` element at
most one count is recorded (the scan stops after the first qualifying
match).  On `t1 = [0]`, `t2 = [0, 1]`, `bins = 2`, `bin_width = 1` the code
bins *both* entries of `t2` (there is no `break` after the increment):
the histogram is `[1, 1]` with total `2 > len(t1) = 1`. -/
theorem delta_loop_counts_second_match_too :
    delta_loop [(0 : ℚ)] [0, 1] 2 1 = [1, 1] ∧
      ¬(delta_loop [(0 : ℚ)] [0, 1] 2 1).sum ≤ 1 := by
  have h : delta_loop [(0 : ℚ)] [0, 1] 2 1 = [1, 1] := by
    norm_num [delta_loop, _delta_loop, delta_outer, scan, bump, binIdx, binIdxZ]
    decide
  exact ⟨h, by rw [h]; decide⟩

/-- **C1 (amended).**  For ascending `t1`, `t2` and positive `bins`,
`bin_width`, the pairwise histogram records one count for *every* pair
`t1[i] ≤ t2[j] < t1[i] + bins*bin_width` — all in-window entries of `t2` are
binned for each `t1` element (not only the first), exactly the brute-force
cross-correlation histogram. -/
theorem delta_loop_counts_all_window_matches (t1 t2 : List ℚ) (bins : ℕ)
    (bw : ℚ) (h1 : t1.Sorted (· ≤ ·)) (h2 : t2.Sorted (· ≤ ·))
    (hbins : 0 < bins) (hbw : 0 < bw) :
    delta_loop t1 t2 bins bw = bruteHist t1 t2 bins bw := by
  unfold delta_loop _delta_loop bruteHist bruteRec
  rw [delta_outer_eq_rec t2 (bins * bw) bw t1 0 0,
    outerRec_eq_bruteAux (bins * bw) h2 t1 h1 0 0 (Nat.zero_le _)
      (by intro x hx; simp at hx)]

/-- Witness for `delta_loop_counts_all_window_matches`. -/
theorem delta_loop_counts_all_window_matches_witness :
    delta_loop [(0 : ℚ), 3] [1, 2, 9] 2 2 = bruteHist [(0 : ℚ), 3] [1, 2, 9] 2 2 :=
  delta_loop_counts_all_window_matches [(0 : ℚ), 3] [1, 2, 9] 2 2
    (by norm_num [List.sorted_cons]) (by norm_num [List.sorted_cons])
    (by norm_num) (by norm_num)

/-- **C5.**  Concrete scenario 1 of the specification: `t1 = [0, 10, 20]`,
`t2 = [5, 12, 50]`, `bins = 5`, `bin_width_ns = 2` gives `[0, 1, 1, 0, 0]`
(`dt = 5` in bin 2, `dt = 2` in bin 1, `dt = 30 ≥ 10` excluded). -/
theorem delta_loop_concrete_scenario1 :
    delta_loop [(0 : ℚ), 10, 20] [5, 12, 50] 5 2 = [0, 1, 1, 0, 0] := by
  norm_num [delta_loop, _delta_loop, delta_outer, scan, bump, binIdx, binIdxZ]
  decide

/-- The outer loop does nothing when `t2` is empty. -/
theorem delta_outer_nil_right (maxR bw : ℚ) :
    ∀ (t1 : List ℚ) (idx2 : ℕ) (hist : List ℕ),
      delta_outer [] maxR bw t1 idx2 hist = hist
  | [], _, _ => rfl
  | b :: t1r, idx2, hist => by
    simp only [delta_outer, List.drop_nil, scan]
    exact delta_outer_nil_right maxR bw t1r idx2 hist

/-- **C7, counterexample.**  The part_002 wrapper `delta_loop` reads
`t1[0]` in its `isinstance` test before delegating to `_delta_loop`: with
an empty `t1` it raises `IndexError` (embedded as `none`) instead of
returning the all-zero histogram, refuting the claim's no-error clause
for the cited wrapper. -/
theorem delta_loop_i64_empty_t1_raises :
    delta_loop_i64 [] [(5 : ℚ)] 5 2 = none ∧
      delta_loop_i64 [] [(5 : ℚ)] 5 2 ≠ some (List.replicate 5 0) :=
  ⟨rfl, fun h => Option.noConfusion h⟩

/-- **C7 (amended).**  With an empty `t1` or an empty `t2` the core
`_delta_loop` — and with it the plain pass-through wrapper of part_003 —
returns the all-zero histogram of length `bins` with no out-of-range
access; the part_002 wrapper does so too whenever `t1` is nonempty, but
with an empty `t1` it raises `IndexError` before `_delta_loop` runs (see
the counterexample), because its `isinstance` test reads `t1[0]`. -/
theorem delta_loop_empty_input (t1 t2 : List ℚ) (bins : ℕ) (bw : ℚ)
    (hbins : 0 < bins) (hbw : 0 < bw) (h : t1 = [] ∨ t2 = []) :
    delta_loop t1 t2 bins bw = List.replicate bins 0 ∧
      (t1 ≠ [] → delta_loop_i64 t1 t2 bins bw =
        some (List.replicate bins 0)) := by
  constructor
  · rcases h with h | h <;> subst h
    · rfl
    · exact delta_outer_nil_right (bins * bw) bw t1 0 (List.replicate bins 0)
  · intro hne
    obtain ⟨a, t1r, rfl⟩ := List.exists_cons_of_ne_nil hne
    rcases h with h | h
    · exact absurd h (List.cons_ne_nil a t1r)
    · subst h
      show some (_delta_loop (a :: t1r) [] bins bw) =
        some (List.replicate bins 0)
      exact congrArg some
        (delta_outer_nil_right (bins * bw) bw (a :: t1r) 0
          (List.replicate bins 0))

/-- Witness for `delta_loop_empty_input`. -/
theorem delta_loop_empty_input_witness :
    delta_loop [(3 : ℚ)] [] 4 2 = List.replicate 4 0 ∧
      ([(3 : ℚ)] ≠ [] → delta_loop_i64 [(3 : ℚ)] [] 4 2 =
        some (List.replicate 4 0)) :=
  delta_loop_empty_input [(3 : ℚ)] [] 4 2 (by norm_num) (by norm_num)
    (Or.inr rfl)

/-! ## Bounds-checked variant (safety of the unchecked write)

The Cython source is compiled with `boundscheck(False)`: the write
`histogram[int(k // bin_width)] += 1` is unchecked.  `bumpChk` performs the
same write but fails (returns `none`) if the index is out of `[0, bins)`;
`_delta_loopChk` is `_delta_loop` with every write checked. -/

/-- Checked histogram increment (fails on an out-of-range index, including a
negative one). -/
def bumpChk (hist : List ℕ) (i : ℤ) : Option (List ℕ) :=
  if 0 ≤ i ∧ i < (hist.length : ℤ) then some (bump hist i.toNat) else none

/-- `scan` with checked writes. -/
def scanChk (b maxR bw : ℚ) : List ℚ → ℕ → ℕ → List ℕ → Option (ℕ × List ℕ)
  | [], _, idx2, hist => some (idx2, hist)
  | c :: rest, j, idx2, hist =>
    if c < b then
      scanChk b maxR bw rest (j + 1) (j + 1) hist
    else if maxR ≤ c - b then
      some (idx2, hist)
    else
      match bumpChk hist (binIdxZ (c - b) bw) with
      | none => none
      | some hist1 => scanChk b maxR bw rest (j + 1) idx2 hist1

/-- `delta_outer` with checked writes. -/
def delta_outerChk (t2 : List ℚ) (maxR bw : ℚ) :
    List ℚ → ℕ → List ℕ → Option (List ℕ)
  | [], _, hist => some hist
  | b :: t1r, idx2, hist =>
    match scanChk b maxR bw (t2.drop idx2) idx2 idx2 hist with
    | none => none
    | some r => delta_outerChk t2 maxR bw t1r r.1 r.2

/-- `_delta_loop` with checked writes. -/
def _delta_loopChk (t1 t2 : List ℚ) (bins : ℕ) (bw : ℚ) : Option (List ℕ) :=
  delta_outerChk t2 (bins * bw) bw t1 0 (List.replicate bins 0)

theorem length_bump (hist : List ℕ) (i : ℕ) : (bump hist i).length = hist.length :=
  List.length_set hist i _

/-- Inside the window the bin index is in `[0, bins)`, so every checked
write succeeds. -/
theorem bumpChk_in_window {k bw : ℚ} {bins : ℕ} (hbw : 0 < bw) (hk : 0 ≤ k)
    (hklt : k < bins * bw) {hist : List ℕ} (hlen : hist.length = bins) :
    bumpChk hist (binIdxZ k bw) = some (bump hist (binIdx k bw)) := by
  have h0 : 0 ≤ binIdxZ k bw := Int.floor_nonneg.2 (div_nonneg hk hbw.le)
  have hlt : binIdxZ k bw < (bins : ℤ) := by
    rw [binIdxZ, Int.floor_lt]
    push_cast
    rw [div_lt_iff hbw]
    linarith
  rw [bumpChk, if_pos ⟨h0, by rw [hlen]; exact_mod_cast hlt⟩]
  rfl

theorem scanChk_eq_scan (b bw : ℚ) (bins : ℕ) (hbw : 0 < bw) :
    ∀ (rest : List ℚ) (j idx2 : ℕ) (hist : List ℕ), hist.length = bins →
      scanChk b (bins * bw) bw rest j idx2 hist =
        some (scan b (bins * bw) bw rest j idx2 hist)
  | [], _, _, _, _ => rfl
  | c :: rest, j, idx2, hist, hlen => by
    by_cases h1 : c < b
    · simp only [scanChk, scan, if_pos h1]
      exact scanChk_eq_scan b bw bins hbw rest (j + 1) (j + 1) hist hlen
    · by_cases h2 : (bins : ℚ) * bw ≤ c - b
      · simp only [scanChk, scan, if_neg h1, if_pos h2]
      · simp only [scanChk, scan, if_neg h1, if_neg h2]
        rw [bumpChk_in_window hbw (by push_neg at h1; linarith)
          (by push_neg at h2; exact h2) hlen]
        exact scanChk_eq_scan b bw bins hbw rest (j + 1) idx2 _
          (by rw [length_bump, hlen])

theorem scan_length (b maxR bw : ℚ) :
    ∀ (rest : List ℚ) (j idx2 : ℕ) (hist : List ℕ),
      (scan b maxR bw rest j idx2 hist).2.length = hist.length
  | [], _, _, _ => rfl
  | c :: rest, j, idx2, hist => by
    by_cases h1 : c < b
    · simp only [scan, if_pos h1]
      exact scan_length b maxR bw rest (j + 1) (j + 1) hist
    · by_cases h2 : maxR ≤ c - b
      · simp only [scan, if_neg h1, if_pos h2]
      · simp only [scan, if_neg h1, if_neg h2]
        rw [scan_length b maxR bw rest (j + 1) idx2 _, length_bump]

theorem delta_outerChk_eq (bw : ℚ) (bins : ℕ) (hbw : 0 < bw) (t2 : List ℚ) :
    ∀ (t1 : List ℚ) (idx2 : ℕ) (hist : List ℕ), hist.length = bins →
      delta_outerChk t2 (bins * bw) bw t1 idx2 hist =
        some (delta_outer t2 (bins * bw) bw t1 idx2 hist)
  | [], _, _, _ => rfl
  | b :: t1r, idx2, hist, hlen => by
    simp only [delta_outerChk, delta_outer,
      scanChk_eq_scan b bw bins hbw (t2.drop idx2) idx2 idx2 hist hlen]
    exact delta_outerChk_eq bw bins hbw t2 t1r _ _
      (by rw [scan_length, hlen])

/-- All differences recorded by `scanRec` satisfy `0 ≤ k < maxR`, for any
inputs. -/
theorem scanRec_bounds (b maxR : ℚ) :
    ∀ (rest : List ℚ) (j : ℕ), ∀ p ∈ scanRec b maxR rest j, 0 ≤ p.2 ∧ p.2 < maxR
  | [], _, _, hp => absurd hp (List.not_mem_nil _)
  | c :: rest, j, p, hp => by
    rw [scanRec] at hp
    by_cases h1 : c < b
    · rw [if_pos h1] at hp
      exact scanRec_bounds b maxR rest (j + 1) p hp
    · by_cases h2 : maxR ≤ c - b
      · rw [if_neg h1, if_pos h2] at hp
        exact absurd hp (List.not_mem_nil _)
      · rw [if_neg h1, if_neg h2, List.mem_cons] at hp
        rcases hp with hp | hp
        · subst hp
          push_neg at h1 h2
          exact ⟨by simpa using sub_nonneg.2 h1, h2⟩
        · exact scanRec_bounds b maxR rest (j + 1) p hp

theorem outerRec_bounds (t2 : List ℚ) (maxR : ℚ) :
    ∀ (t1 : List ℚ) (i idx2 : ℕ), ∀ r ∈ outerRec t2 maxR t1 i idx2,
      0 ≤ r.2.2 ∧ r.2.2 < maxR
  | [], _, _, _, hr => absurd hr (List.not_mem_nil _)
  | b :: t1r, i, idx2, r, hr => by
    rw [outerRec, List.mem_append] at hr
    rcases hr with hr | hr
    · obtain ⟨p, hp, hpr⟩ := List.mem_map.1 hr
      have := scanRec_bounds b maxR (t2.drop idx2) idx2 p hp
      rw [← hpr]
      exact this
    · exact outerRec_bounds t2 maxR t1r (i + 1) _ r hr

/-- **C8.**  Every histogram write of `_delta_loop` is in bounds: the
checked variant agrees with the unchecked one (no write fails), every
recorded time difference satisfies `0 ≤ dt < bins*bin_width` (in particular
`dt = bins*bin_width` is excluded), and a difference just below the window
edge falls in the last bin `bins - 1`. -/
theorem delta_loop_writes_in_bounds (t1 t2 : List ℚ) (bins : ℕ) (bw : ℚ)
    (h1 : t1.Sorted (· ≤ ·)) (h2 : t2.Sorted (· ≤ ·))
    (hbins : 0 < bins) (hbw : 0 < bw) :
    _delta_loopChk t1 t2 bins bw = some (_delta_loop t1 t2 bins bw) ∧
      (∀ r ∈ outerRec t2 (bins * bw) t1 0 0, 0 ≤ r.2.2 ∧ r.2.2 < bins * bw) ∧
      (∀ k : ℚ, bins * bw - bw ≤ k → k < bins * bw → binIdx k bw = bins - 1) := by
  refine ⟨?_, outerRec_bounds t2 (bins * bw) t1 0 0, ?_⟩
  · exact delta_outerChk_eq bw bins hbw t2 t1 0 _ (List.length_replicate bins 0)
  · intro k hk1 hk2
    have hfl : binIdxZ k bw = (bins : ℤ) - 1 := by
      rw [binIdxZ, Int.floor_eq_iff]
      constructor
      · push_cast
        rw [le_div_iff hbw]
        linarith
      · push_cast
        rw [div_lt_iff hbw]
        linarith
    rw [binIdx, hfl]
    omega

/-- Witness for `delta_loop_writes_in_bounds`. -/
theorem delta_loop_writes_in_bounds_witness :
    _delta_loopChk [(0 : ℚ), 1] [0, 2] 2 2 =
        some (_delta_loop [(0 : ℚ), 1] [0, 2] 2 2) ∧
      (∀ r ∈ outerRec [(0 : ℚ), 2] ((2 : ℕ) * (2 : ℚ)) [(0 : ℚ), 1] 0 0,
        0 ≤ r.2.2 ∧ r.2.2 < (2 : ℕ) * (2 : ℚ)) ∧
      (∀ k : ℚ, (2 : ℕ) * (2 : ℚ) - 2 ≤ k → k < (2 : ℕ) * (2 : ℚ) →
        binIdx k 2 = 2 - 1) :=
  delta_loop_writes_in_bounds [(0 : ℚ), 1] [0, 2] 2 2
    (by norm_num [List.sorted_cons]) (by norm_num [List.sorted_cons])
    (by norm_num) (by norm_num)

/-! ## Masked pairwise histogram `_delta_loop_ts`

Source:

```
for t1_idx in range(t1s_len):
    t1 = t1s[t1_idx]
    n = -1
    t2_idx0 = t2_idx_left
    while True:
        n += 1
        t2_idx = t2_idx0 + n
        if t2_idx >= t2s_len:
            break
        t2 = t2s[t2_idx]
        if t2 < t1:
            t2_idx_left = t2_idx + 1
            continue
        dt = t2 - t1
        if dt >= window_size:
            break
        mask1[t1_idx] = 1
        mask2[t2_idx] = 1
        histogram[int(dt // bin_width)] += 1
```

This is the `_delta_loop` scan with two participation masks added;
`t2_idx_left` plays the role of `idx2` and `t2_idx` the role of `j`. -/

/-- `mask[i] = 1` of the source (masks are int arrays cast to booleans on
return; we model them as boolean lists directly). -/
def setTrue (m : List Bool) (i : ℕ) : List Bool := m.set i true

/-- Inner loop of `_delta_loop_ts`: `i` is the fixed `t1_idx`. -/
def scanTs (b maxR bw : ℚ) (i : ℕ) :
    List ℚ → ℕ → ℕ → List ℕ → List Bool → List Bool →
      ℕ × List ℕ × List Bool × List Bool
  | [], _, idx2, hist, m1, m2 => (idx2, hist, m1, m2)
  | c :: rest, j, idx2, hist, m1, m2 =>
    if c < b then
      scanTs b maxR bw i rest (j + 1) (j + 1) hist m1 m2
    else if maxR ≤ c - b then
      (idx2, hist, m1, m2)
    else
      scanTs b maxR bw i rest (j + 1) idx2 (bump hist (binIdx (c - b) bw))
        (setTrue m1 i) (setTrue m2 j)

/-- Outer loop of `_delta_loop_ts`. -/
def tsOuter (t2 : List ℚ) (maxR bw : ℚ) :
    List ℚ → ℕ → ℕ → List ℕ → List Bool → List Bool →
      List ℕ × List Bool × List Bool
  | [], _, _, hist, m1, m2 => (hist, m1, m2)
  | b :: t1r, i, idx2, hist, m1, m2 =>
    let r := scanTs b maxR bw i (t2.drop idx2) idx2 idx2 hist m1 m2
    tsOuter t2 maxR bw t1r (i + 1) r.1 r.2.1 r.2.2.1 r.2.2.2

/-- `_delta_loop_ts(t1s, t2s, bins_len, bin_width, t1s_len, t2s_len)`. -/
def _delta_loop_ts (t1 t2 : List ℚ) (bins : ℕ) (bw : ℚ) :
    List ℕ × List Bool × List Bool :=
  tsOuter t2 (bins * bw) bw t1 0 0 (List.replicate bins 0)
    (List.replicate t1.length false) (List.replicate t2.length false)

/-- `delta_loop_ts(t1, t2, bins, bin_width_ns)`: the wrapper computes the
lengths and returns `_delta_loop_ts` unchanged. -/
def delta_loop_ts (t1 t2 : List ℚ) (bins : ℕ) (bw : ℚ) :
    List ℕ × List Bool × List Bool :=
  _delta_loop_ts t1 t2 bins bw

/-- Specification of `mask1`: `t1[i]` participates iff some `t2` entry lies
in its window. -/
def hasMatch (b : ℚ) (t2 : List ℚ) (maxR : ℚ) : Bool :=
  t2.any fun c => decide (b ≤ c) && decide (c - b < maxR)

/-- Specification mask for `t1`. -/
def mask1Spec (t1 t2 : List ℚ) (maxR : ℚ) : List Bool :=
  t1.map fun b => hasMatch b t2 maxR

/-- Specification mask for `t2`: `t2[j]` participates iff it lies in the
window of some `t1` entry. -/
def mask2Spec (t1 t2 : List ℚ) (maxR : ℚ) : List Bool :=
  t2.map fun c => t1.any fun b => decide (b ≤ c) && decide (c - b < maxR)

theorem scanTs_eq_rec (b maxR bw : ℚ) (i : ℕ) :
    ∀ (rest : List ℚ) (j idx2 : ℕ) (hist : List ℕ) (m1 m2 : List Bool),
      scanTs b maxR bw i rest j idx2 hist m1 m2 =
        (scanCur b maxR rest j idx2,
          applyRecs bw hist (scanRec b maxR rest j),
          (if scanRec b maxR rest j = [] then m1 else setTrue m1 i),
          (scanRec b maxR rest j).foldl (fun m p => setTrue m p.1) m2)
  | [], _, _, _, _, _ => rfl
  | c :: rest, j, idx2, hist, m1, m2 => by
    by_cases h1 : c < b
    · simp only [scanTs, scanCur, scanRec, if_pos h1]
      exact scanTs_eq_rec b maxR bw i rest (j + 1) (j + 1) hist m1 m2
    · by_cases h2 : maxR ≤ c - b
      · simp only [scanTs, scanCur, scanRec, if_neg h1, if_pos h2, if_true,
          eq_self_iff_true, applyRecs, List.foldl_nil]
      · simp only [scanTs, scanCur, scanRec, if_neg h1, if_neg h2, applyRecs,
          List.foldl_cons]
        rw [scanTs_eq_rec b maxR bw i rest (j + 1) idx2 _ _ _]
        have hm1 : (if scanRec b maxR rest (j + 1) = [] then setTrue m1 i
            else setTrue (setTrue m1 i) i) = setTrue m1 i := by
          by_cases h3 : scanRec b maxR rest (j + 1) = []
          · rw [if_pos h3]
          · rw [if_neg h3, setTrue, setTrue, List.set_set]
        rw [hm1, if_neg (List.cons_ne_nil _ _)]
        rfl

/-- A sorted scan records something iff some `t2` entry matches `b` (the
prefix hidden by the cursor contains no matches). -/
theorem scanRec_eq_nil_iff {t2 : List ℚ} (h2 : t2.Sorted (· ≤ ·)) (b maxR : ℚ)
    (idx2 : ℕ) (hle : idx2 ≤ t2.length)
    (hinv : ∀ x ∈ t2.take idx2, x < b) :
    (scanRec b maxR (t2.drop idx2) idx2 = []) ↔ hasMatch b t2 maxR = false := by
  have htag := scanRec_tagged_eq h2 b maxR 0 idx2 hle hinv
  constructor
  · intro hnil
    rw [hasMatch, ← Bool.not_eq_true, List.any_eq_true]
    rintro ⟨c, hc, hcond⟩
    rw [Bool.and_eq_true, decide_eq_true_eq, decide_eq_true_eq] at hcond
    obtain ⟨q, hq⟩ := List.mem_iff_getElem?.1 hc
    have hmem : (q, c) ∈ t2.enum := by
      rw [List.enum]
      have := (@List.mk_add_mem_enumFrom_iff_getElem? _ 0 q c t2).2 hq
      simpa using this
    have : (if b ≤ c ∧ c - b < maxR then some ((0 : ℕ), q, c - b) else none)
        = none := by
      have h0 : t2.enum.filterMap (fun cj =>
          if b ≤ cj.2 ∧ cj.2 - b < maxR then some ((0 : ℕ), cj.1, cj.2 - b)
          else none) = [] := by
        rw [← htag, hnil]
        rfl
      exact List.filterMap_eq_nil_iff.1 h0 (q, c) hmem
    rw [if_pos hcond] at this
    exact Option.some_ne_none _ this
  · intro hfalse
    by_contra hne
    obtain ⟨p, hp⟩ := List.exists_mem_of_ne_nil _ hne
    have hmem : (0, p.1, p.2) ∈ (scanRec b maxR (t2.drop idx2) idx2).map
        (fun p => ((0 : ℕ), p.1, p.2)) :=
      List.mem_map.2 ⟨p, hp, rfl⟩
    rw [htag] at hmem
    obtain ⟨cj, hcj, hcjeq⟩ := List.mem_filterMap.1 hmem
    by_cases hcond : b ≤ cj.2 ∧ cj.2 - b < maxR
    · have hcj2 : (cj.1, cj.2) ∈ List.enumFrom 0 t2 := by
        rw [Prod.mk.eta, ← List.enum_eq_enumFrom]
        exact hcj
      obtain ⟨-, -, hx⟩ := List.mem_enumFrom hcj2
      have hc2 : cj.2 ∈ t2 := by
        rw [hx]
        exact List.getElem_mem _
      have : hasMatch b t2 maxR = true := by
        rw [hasMatch, List.any_eq_true]
        exact ⟨cj.2, hc2, by
          rw [Bool.and_eq_true, decide_eq_true_eq, decide_eq_true_eq]
          exact hcond⟩
      rw [this] at hfalse
      exact absurd hfalse (by decide)
    · rw [if_neg hcond] at hcjeq
      exact Option.noConfusion hcjeq

/-- Value of a fold of mask writes. -/
theorem foldl_setTrue_getElem? :
    ∀ (js : List ℕ) (m : List Bool) (q : ℕ),
      (js.foldl setTrue m)[q]? =
        if q ∈ js ∧ q < m.length then some true else m[q]?
  | [], m, q => by simp
  | j :: js, m, q => by
    rw [List.foldl_cons, foldl_setTrue_getElem? js (setTrue m j) q, setTrue,
      List.length_set]
    by_cases hjq : j = q
    · subst hjq
      by_cases hlen : j < m.length
      · by_cases hmem : j ∈ js
        · simp [hmem, hlen, List.getElem?_set]
        · simp [hmem, hlen, List.getElem?_set]
      · simp [hlen, List.getElem?_set,
          List.getElem?_eq_none (le_of_not_lt hlen)]
    · rw [List.getElem?_set_ne hjq]
      have hq' : q ≠ j := fun h => hjq h.symm
      by_cases hmem : q ∈ js
      · simp [hmem, hq']
      · simp [hmem, hq']

/-- Value of the fold of conditional `mask1` writes over an enumerated
`t1`-suffix. -/
theorem foldl_mask1_getElem? (t2 : List ℚ) (maxR : ℚ) :
    ∀ (t1 : List ℚ) (i : ℕ) (m1 : List Bool) (q : ℕ),
      ((t1.enumFrom i).foldl
          (fun m ib => if hasMatch ib.2 t2 maxR then setTrue m ib.1 else m)
          m1)[q]? =
        if i ≤ q ∧ (t1[q - i]?.elim false fun b => hasMatch b t2 maxR) = true ∧
            q < m1.length
          then some true else m1[q]?
  | [], i, m1, q => by simp
  | b :: t1r, i, m1, q => by
    rw [List.enumFrom_cons, List.foldl_cons,
      foldl_mask1_getElem? t2 maxR t1r (i + 1) _ q]
    have hlen' : (if hasMatch b t2 maxR then setTrue m1 i else m1).length
        = m1.length := by
      by_cases h : hasMatch b t2 maxR <;> simp [h, setTrue]
    rcases lt_trichotomy q i with hqi | hqi | hqi
    · have hno1 : ¬(i + 1 ≤ q ∧
          (t1r[q - (i + 1)]?.elim false fun b => hasMatch b t2 maxR) = true ∧
          q < m1.length) := fun h => absurd h.1 (by omega)
      have hno2 : ¬(i ≤ q ∧
          ((b :: t1r)[q - i]?.elim false fun b => hasMatch b t2 maxR) = true ∧
          q < m1.length) := fun h => absurd h.1 (by omega)
      rw [hlen', if_neg hno1, if_neg hno2]
      by_cases h : hasMatch b t2 maxR
      · rw [if_pos h, setTrue, List.getElem?_set_ne (by omega)]
      · rw [if_neg h]
    · subst hqi
      have hno1 : ¬(q + 1 ≤ q ∧
          (t1r[q - (q + 1)]?.elim false fun b => hasMatch b t2 maxR) = true ∧
          q < m1.length) := fun h => absurd h.1 (by omega)
      rw [hlen', if_neg hno1, Nat.sub_self, List.getElem?_cons_zero,
        Option.elim_some]
      by_cases h : hasMatch b t2 maxR
      · by_cases hl : q < m1.length
        · rw [if_pos h, setTrue, List.getElem?_set_eq hl,
            if_pos (show q ≤ q ∧ hasMatch b t2 maxR = true ∧ q < m1.length from
              ⟨le_refl q, h, hl⟩)]
        · rw [if_pos h, setTrue, List.set_eq_of_length_le (le_of_not_lt hl),
            if_neg (show ¬(q ≤ q ∧ hasMatch b t2 maxR = true ∧ q < m1.length)
              from fun hh => hl hh.2.2)]
      · rw [if_neg h,
          if_neg (show ¬(q ≤ q ∧ hasMatch b t2 maxR = true ∧ q < m1.length)
            from fun hh => h hh.2.1)]
    · have hsub : q - i = (q - (i + 1)) + 1 := by omega
      have helse : (if hasMatch b t2 maxR then setTrue m1 i else m1)[q]?
          = m1[q]? := by
        by_cases h : hasMatch b t2 maxR
        · rw [if_pos h, setTrue, List.getElem?_set_ne (by omega)]
        · rw [if_neg h]
      rw [hlen', helse, hsub, List.getElem?_cons_succ]
      have hiff : (i + 1 ≤ q ∧
            (t1r[q - (i + 1)]?.elim false fun b => hasMatch b t2 maxR) = true ∧
            q < m1.length) ↔
          (i ≤ q ∧
            (t1r[q - (i + 1)]?.elim false fun b => hasMatch b t2 maxR) = true ∧
            q < m1.length) := by
        constructor <;> (rintro ⟨hx, hy⟩; exact ⟨by omega, hy⟩)
      rw [if_congr hiff rfl rfl]

/-- Positions `q` of `t2` recorded by the brute-force reference are exactly
those lying in the window of some `t1` entry. -/
theorem mem_bruteAux_snd (t2 : List ℚ) (maxR : ℚ) :
    ∀ (t1 : List ℚ) (i q : ℕ),
      (∃ r ∈ bruteAux t2 maxR t1 i, r.2.1 = q) ↔
        ∃ c, t2[q]? = some c ∧ ∃ b ∈ t1, b ≤ c ∧ c - b < maxR
  | [], i, q => by simp [bruteAux]
  | b :: t1r, i, q => by
    constructor
    · rintro ⟨r, hr, hq⟩
      rw [bruteAux, List.mem_append] at hr
      rcases hr with hr | hr
      · obtain ⟨cj, hcj, hres⟩ := List.mem_filterMap.1 hr
        by_cases hcond : b ≤ cj.2 ∧ cj.2 - b < maxR
        · rw [if_pos hcond] at hres
          obtain rfl := Option.some_injective _ hres
          have hq' : cj.1 = q := hq
          have hcj2 : (cj.1, cj.2) ∈ List.enumFrom 0 t2 := by
            rw [Prod.mk.eta, ← List.enum_eq_enumFrom]
            exact hcj
          obtain ⟨-, hlt, hx⟩ := List.mem_enumFrom hcj2
          have hlt' : cj.1 < t2.length := by omega
          have hx' : cj.2 = t2[cj.1] := by simpa using hx
          refine ⟨cj.2, ?_, b, List.mem_cons_self _ _, hcond⟩
          rw [← hq', List.getElem?_eq_getElem hlt', ← hx']
        · rw [if_neg hcond] at hres
          exact absurd hres (Option.noConfusion)
      · obtain ⟨c, hc, b', hb', hcond⟩ :=
          (mem_bruteAux_snd t2 maxR t1r (i + 1) q).1 ⟨r, hr, hq⟩
        exact ⟨c, hc, b', List.mem_cons_of_mem _ hb', hcond⟩
    · rintro ⟨c, hc, b', hb', hcond⟩
      rcases List.mem_cons.1 hb' with rfl | hb'
      · refine ⟨(i, q, c - b'), ?_, rfl⟩
        rw [bruteAux, List.mem_append]
        left
        apply List.mem_filterMap.2
        refine ⟨(q, c), ?_, by rw [if_pos hcond]⟩
        rw [List.enum_eq_enumFrom]
        have := (@List.mk_add_mem_enumFrom_iff_getElem? _ 0 q c t2).2 hc
        simpa using this
      · obtain ⟨r, hr, hq⟩ :=
          (mem_bruteAux_snd t2 maxR t1r (i + 1) q).2 ⟨c, hc, b', hb', hcond⟩
        exact ⟨r, by rw [bruteAux, List.mem_append]; exact Or.inr hr, hq⟩

/-- On sorted inputs the masked outer loop computes the `_delta_loop`
histogram together with folds of the specification mask updates. -/
theorem tsOuter_sorted {t2 : List ℚ} (h2 : t2.Sorted (· ≤ ·)) (maxR bw : ℚ) :
    ∀ (t1 : List ℚ), t1.Sorted (· ≤ ·) → ∀ (i idx2 : ℕ) (hist : List ℕ)
      (m1 m2 : List Bool), idx2 ≤ t2.length →
      (∀ x ∈ t2.take idx2, ∀ b ∈ t1, x < b) →
      tsOuter t2 maxR bw t1 i idx2 hist m1 m2 =
        (delta_outer t2 maxR bw t1 idx2 hist,
          (t1.enumFrom i).foldl
            (fun m ib => if hasMatch ib.2 t2 maxR then setTrue m ib.1 else m)
            m1,
          ((bruteAux t2 maxR t1 i).map fun r => r.2.1).foldl setTrue m2)
  | [], _, _, _, _, _, _, _, _ => rfl
  | b :: t1r, h1, i, idx2, hist, m1, m2, hle, hinv => by
    rw [List.sorted_cons] at h1
    have hinvb : ∀ x ∈ t2.take idx2, x < b :=
      fun x hx => hinv x hx b (List.mem_cons_self _ _)
    have hcur := scanCur_sorted h2 b maxR (t2.drop idx2) idx2 idx2 rfl hle hinvb
    simp only [tsOuter, scanTs_eq_rec]
    rw [tsOuter_sorted h2 maxR bw t1r h1.2 (i + 1) _ _ _ _ hcur.2
      (fun x hx b' hb' => lt_of_lt_of_le (hcur.1 x hx) (h1.1 b' hb'))]
    have hhist : delta_outer t2 maxR bw (b :: t1r) idx2 hist =
        delta_outer t2 maxR bw t1r
          (scanCur b maxR (t2.drop idx2) idx2 idx2)
          (applyRecs bw hist (scanRec b maxR (t2.drop idx2) idx2)) := by
      simp only [delta_outer, scan_eq_rec]
    have hm1 : (if scanRec b maxR (t2.drop idx2) idx2 = [] then m1
        else setTrue m1 i) =
        (if hasMatch b t2 maxR then setTrue m1 i else m1) := by
      by_cases h : hasMatch b t2 maxR
      · rw [if_pos h, if_neg]
        intro hnil
        rw [(scanRec_eq_nil_iff h2 b maxR idx2 hle hinvb).1 hnil] at h
        exact Bool.noConfusion h
      · rw [if_pos ((scanRec_eq_nil_iff h2 b maxR idx2 hle hinvb).2
          (Bool.eq_false_iff.2 h)), if_neg h]
    have hm2 : ((bruteAux t2 maxR (b :: t1r) i).map fun r => r.2.1).foldl
        setTrue m2 =
        ((bruteAux t2 maxR t1r (i + 1)).map fun r => r.2.1).foldl setTrue
          ((scanRec b maxR (t2.drop idx2) idx2).foldl
            (fun m p => setTrue m p.1) m2) := by
      rw [bruteAux, List.map_append, List.foldl_append]
      congr 1
      rw [← scanRec_tagged_eq h2 b maxR i idx2 hle hinvb, List.map_map,
        List.foldl_map]
      rfl
    rw [hhist, hm1, hm2, List.enumFrom_cons, List.foldl_cons]

/-- **C9.**  On ascending inputs, `delta_loop_ts` returns the `delta_loop`
histogram together with the two participation masks: `mask1[i]` is true iff
some `t2` entry lies in the window of `t1[i]`, and `mask2[j]` is true iff
`t2[j]` lies in the window of some `t1` entry (in particular the masks have
the lengths of `t1` and `t2`). -/
theorem delta_loop_ts_histogram_and_masks (t1 t2 : List ℚ) (bins : ℕ)
    (bw : ℚ) (h1 : t1.Sorted (· ≤ ·)) (h2 : t2.Sorted (· ≤ ·))
    (hbins : 0 < bins) (hbw : 0 < bw) :
    delta_loop_ts t1 t2 bins bw =
      (delta_loop t1 t2 bins bw, mask1Spec t1 t2 (bins * bw),
        mask2Spec t1 t2 (bins * bw)) := by
  rw [delta_loop_ts, _delta_loop_ts,
    tsOuter_sorted h2 (bins * bw) bw t1 h1 0 0 _ _ _ (Nat.zero_le _)
      (by intro x hx; simp at hx)]
  refine congrArg₂ _ rfl (congrArg₂ _ ?_ ?_)
  · apply List.ext_getElem?
    intro q
    rw [← List.enum_eq_enumFrom, List.enum]
    rw [foldl_mask1_getElem? t2 (bins * bw) t1 0 _ q]
    rw [mask1Spec, List.getElem?_map, List.length_replicate, Nat.sub_zero]
    rcases hq : t1[q]? with - | b
    · have hqlen : t1.length ≤ q := by
        by_contra hcon
        push_neg at hcon
        rw [List.getElem?_eq_getElem hcon] at hq
        exact Option.noConfusion hq
      rw [if_neg (by
        rintro ⟨-, helim, -⟩
        rw [Option.elim_none] at helim
        exact Bool.noConfusion helim)]
      rw [List.getElem?_replicate, if_neg (by omega), Option.map_none']
    · have hqlen : q < t1.length := by
        by_contra hcon
        push_neg at hcon
        rw [List.getElem?_eq_none hcon] at hq
        exact Option.noConfusion hq
      rw [Option.map_some', Option.elim_some]
      by_cases h : hasMatch b t2 (bins * bw)
      · rw [if_pos ⟨Nat.zero_le q, h, hqlen⟩, h]
      · rw [if_neg (fun hh => h hh.2.1), List.getElem?_replicate,
          if_pos hqlen, Bool.eq_false_iff.2 h]
  · apply List.ext_getElem?
    intro q
    rw [foldl_setTrue_getElem?, mask2Spec, List.getElem?_map,
      List.length_replicate]
    rcases hq : t2[q]? with - | c
    · have hqlen : t2.length ≤ q := by
        by_contra hcon
        push_neg at hcon
        rw [List.getElem?_eq_getElem hcon] at hq
        exact Option.noConfusion hq
      rw [if_neg (fun hh => absurd hh.2 (by omega)), Option.map_none',
        List.getElem?_replicate, if_neg (by omega)]
    · have hqlen : q < t2.length := by
        by_contra hcon
        push_neg at hcon
        rw [List.getElem?_eq_none hcon] at hq
        exact Option.noConfusion hq
      rw [Option.map_some']
      by_cases hany : (t1.any fun b => decide (b ≤ c) &&
          decide (c - b < bins * bw)) = true
      · obtain ⟨b, hb, hcond⟩ := List.any_eq_true.1 hany
        rw [Bool.and_eq_true, decide_eq_true_eq, decide_eq_true_eq] at hcond
        have hjs : q ∈ (bruteRec t1 t2 (bins * bw)).map fun r => r.2.1 := by
          apply List.mem_map.2
          obtain ⟨r, hr, hrq⟩ := (mem_bruteAux_snd t2 (bins * bw) t1 0 q).2
            ⟨c, hq, b, hb, hcond⟩
          exact ⟨r, hr, hrq⟩
        rw [bruteRec] at hjs
        rw [if_pos ⟨hjs, hqlen⟩, hany]
      · rw [if_neg (by
          rintro ⟨hjs, -⟩
          obtain ⟨r, hr, hrq⟩ := List.mem_map.1 hjs
          obtain ⟨c', hc', b', hb', hcond'⟩ :=
            (mem_bruteAux_snd t2 (bins * bw) t1 0 q).1 ⟨r, hr, hrq⟩
          rw [hq] at hc'
          obtain rfl := Option.some_injective _ hc'
          exact hany (List.any_eq_true.2 ⟨b', hb', by
            rw [Bool.and_eq_true, decide_eq_true_eq, decide_eq_true_eq]
            exact hcond'⟩))]
        rw [List.getElem?_replicate, if_pos hqlen, Bool.eq_false_iff.2 hany]

/-- Witness for `delta_loop_ts_histogram_and_masks`. -/
theorem delta_loop_ts_histogram_and_masks_witness :
    delta_loop_ts [(0 : ℚ), 3] [1, 2, 9] 2 2 =
      (delta_loop [(0 : ℚ), 3] [1, 2, 9] 2 2,
        mask1Spec [(0 : ℚ), 3] [1, 2, 9] ((2 : ℕ) * (2 : ℚ)),
        mask2Spec [(0 : ℚ), 3] [1, 2, 9] ((2 : ℕ) * (2 : ℚ))) :=
  delta_loop_ts_histogram_and_masks [(0 : ℚ), 3] [1, 2, 9] 2 2
    (by norm_num [List.sorted_cons]) (by norm_num [List.sorted_cons])
    (by norm_num) (by norm_num)

/-! ## 4-fold coincidence counters (`fourcoinc.pyx`)

Timestamps are C `unsigned long long` (modelled as `ℕ`; real inputs satisfy
`t < 2^64`), patterns are C `unsigned int` bitmasks, and the window width is
a C `int`.  The per-channel counts are C `int`s, modelled as `ℤ`; the
running total `total` is also a C `int` — the model accumulates it exactly
in `ℤ`, and `toInt32` gives the two's-complement value of the returned
C `int` (C signed overflow is undefined behaviour; two's-complement
wraparound is what every supported platform produces).

The source computes `cutoff = t - coincw_ns` in `unsigned long long`
arithmetic: when `t < coincw_ns` this underflows modulo `2^64`, which
`cutoffOf` reproduces exactly. -/

/-- The four per-channel active counts `ch_counts` (C `int[4]`). -/
structure Counts where
  c0 : ℤ
  c1 : ℤ
  c2 : ℤ
  c3 : ℤ
deriving DecidableEq

/-- `get_window4coincs(counts, idx)`: coincidences formed by a new event in
channel `idx` with the events already inside the window. -/
def get_window4coincs (c : Counts) (idx : ℕ) : ℤ :=
  if idx = 0 then c.c1 * c.c2 * c.c3
  else if idx = 1 then c.c0 * c.c2 * c.c3
  else if idx = 2 then c.c0 * c.c1 * c.c3
  else c.c0 * c.c1 * c.c2

/-- `ch_counts[i] += 1`. -/
def incCh (i : ℕ) (c : Counts) : Counts :=
  if i = 0 then { c with c0 := c.c0 + 1 }
  else if i = 1 then { c with c1 := c.c1 + 1 }
  else if i = 2 then { c with c2 := c.c2 + 1 }
  else { c with c3 := c.c3 + 1 }

/-- `ch_counts[i] -= 1`. -/
def decCh (i : ℕ) (c : Counts) : Counts :=
  if i = 0 then { c with c0 := c.c0 - 1 }
  else if i = 1 then { c with c1 := c.c1 - 1 }
  else if i = 2 then { c with c2 := c.c2 - 1 }
  else { c with c3 := c.c3 - 1 }

/-- `for i in range(4): if _p & (1 << i) != 0: ch_counts[i] -= 1`. -/
def decPattern (p : ℕ) (c : Counts) : Counts :=
  (List.range 4).foldl (fun acc i => if p.testBit i then decCh i acc else acc) c

/-- `for i in range(4): if p & (1 << i) != 0: total += get_window4coincs(...);
ch_counts[i] += 1` — returns the updated counts and the total increment. -/
def countPattern (p : ℕ) (c : Counts) : Counts × ℤ :=
  (List.range 4).foldl
    (fun acc i =>
      if p.testBit i then (incCh i acc.1, acc.2 + get_window4coincs acc.1 i)
      else acc)
    (c, 0)

/-- `cutoff = t - coincw_ns` in C `unsigned long long` arithmetic: the
subtraction wraps modulo `2^64` when `t < coincw_ns`. -/
def cutoffOf (t w : ℕ) : ℕ := (t + (2 ^ 64 - w % 2 ^ 64)) % 2 ^ 64

/-- `while not window.empty() and window.front().t <= cutoff: ...` of
`count_4coinc` (window entries carry bitmask patterns). -/
def flushP : List (ℕ × ℕ) → Counts → ℕ → List (ℕ × ℕ) × Counts
  | [], c, _ => ([], c)
  | (t, p) :: win, c, cutoff =>
    if t ≤ cutoff then flushP win (decPattern p c) cutoff
    else ((t, p) :: win, c)

/-- `for j in range(length)` loop of `count_4coinc`: the window is the FIFO
queue (front at the head, pushes at the back). -/
def c4Loop (w : ℕ) : List (ℕ × ℕ) → List (ℕ × ℕ) → Counts → ℤ → ℤ
  | [], _, _, total => total
  | (t, p) :: evs, win, c, total =>
    let fc := flushP win c (cutoffOf t w)
    let cc := countPattern p fc.2
    c4Loop w evs (fc.1 ++ [(t, p)]) cc.1 (total + cc.2)

/-- `count_4coinc(ts, ps, coincw_ns)`: the exact (unbounded) value of the
accumulator `total`. -/
def count_4coinc (ts ps : List ℕ) (w : ℕ) : ℤ :=
  c4Loop w (ts.zip ps) [] ⟨0, 0, 0, 0⟩ 0

/-- Two's-complement value of a C 32-bit `int` holding `z`. -/
def toInt32 (z : ℤ) : ℤ := (z + 2 ^ 31) % 2 ^ 32 - 2 ^ 31

/-- The value actually returned by the C `int`-typed `count_4coinc`. -/
def count_4coinc_ret (ts ps : List ℕ) (w : ℕ) : ℤ :=
  toInt32 (count_4coinc ts ps w)

/-! ### Multi-stream counter `count_4coinc_indiv` -/

/-- Ordering of `std::pair<ull, uint>` used by the min-priority-queue:
lexicographic on `(time, channel)`. -/
def evLE (x y : ℕ × ℕ) : Prop := x.1 < y.1 ∨ (x.1 = y.1 ∧ x.2 ≤ y.2)

instance evLE.decidable (x y : ℕ × ℕ) : Decidable (evLE x y) :=
  inferInstanceAs (Decidable (x.1 < y.1 ∨ (x.1 = y.1 ∧ x.2 ≤ y.2)))

/-- `stream.push(...)`: the priority queue is modelled as a list sorted
ascending by `evLE`, the minimum at the head (`top`/`pop` = head/tail). -/
def pqInsert (x : ℕ × ℕ) : List (ℕ × ℕ) → List (ℕ × ℕ)
  | [] => [x]
  | y :: l => if evLE x y then x :: y :: l else y :: pqInsert x l

/-- Loop state of `count_4coinc_indiv`: the priority queue, the four unread
suffixes of the inputs (`ch_idxs`/`ch_max_idxs` bookkeeping expressed as
list suffixes), the FIFO window of `(t, channel)` events, the per-channel
counts and the running total. -/
structure IndivSt where
  stream : List (ℕ × ℕ)
  r0 : List ℕ
  r1 : List ℕ
  r2 : List ℕ
  r3 : List ℕ
  window : List (ℕ × ℕ)
  counts : Counts
  total : ℤ

/-- Unread suffix of channel `p`. -/
def IndivSt.rem (s : IndivSt) (p : ℕ) : List ℕ :=
  if p = 0 then s.r0 else if p = 1 then s.r1 else if p = 2 then s.r2 else s.r3

/-- `if i != ch_max_idxs[p]: ... stream.push(tp); ch_idxs[p] = i + 1` with
the switch on `p` selecting the input array. -/
def replenish (s : IndivSt) (p : ℕ) : IndivSt :=
  if p = 0 then
    match s.r0 with
    | [] => s
    | t :: r => { s with stream := pqInsert (t, 0) s.stream, r0 := r }
  else if p = 1 then
    match s.r1 with
    | [] => s
    | t :: r => { s with stream := pqInsert (t, 1) s.stream, r1 := r }
  else if p = 2 then
    match s.r2 with
    | [] => s
    | t :: r => { s with stream := pqInsert (t, 2) s.stream, r2 := r }
  else
    match s.r3 with
    | [] => s
    | t :: r => { s with stream := pqInsert (t, 3) s.stream, r3 := r }

/-- Window flush of `count_4coinc_indiv` (window entries carry the channel
id, `ch_counts[_p] -= 1`). -/
def flushI : List (ℕ × ℕ) → Counts → ℕ → List (ℕ × ℕ) × Counts
  | [], c, _ => ([], c)
  | (t, ch) :: win, c, cutoff =>
    if t ≤ cutoff then flushI win (decCh ch c) cutoff
    else ((t, ch) :: win, c)

/-- `while not stream.empty()` loop of `count_4coinc_indiv`.  The loop pops
one stream event per iteration and every pop consumes one input timestamp,
so fuel `= 4 + Σ len(rᵢ)` suffices (`indivLoop_fuel`). -/
def indivLoop (w : ℕ) : ℕ → IndivSt → ℤ
  | 0, s => s.total
  | fuel + 1, s =>
    match s.stream with
    | [] => s.total
    | (t, p) :: rest =>
      let s1 := replenish { s with stream := rest } p
      let fc := flushI s1.window s1.counts (cutoffOf t w)
      indivLoop w fuel
        { s1 with
          window := fc.1 ++ [(t, p)],
          counts := incCh p fc.2,
          total := s1.total + get_window4coincs fc.2 p }

/-- `count_4coinc_indiv(ts1, ts2, ts3, ts4, coincw_ns)`.  The source reads
`ts1[0] … ts4[0]` unconditionally (with bounds checks compiled out); the
embedding returns `none` exactly when one of those reads is out of
bounds. -/
def count_4coinc_indiv (ts1 ts2 ts3 ts4 : List ℕ) (w : ℕ) : Option ℤ :=
  match ts1, ts2, ts3, ts4 with
  | t1 :: r1, t2 :: r2, t3 :: r3, t4 :: r4 =>
    some (indivLoop w (r1.length + r2.length + r3.length + r4.length + 4)
      ⟨pqInsert (t4, 3) (pqInsert (t3, 2) (pqInsert (t2, 1) [(t1, 0)])),
        r1, r2, r3, r4, [], ⟨0, 0, 0, 0⟩, 0⟩)
  | _, _, _, _ => none

/-- Single-stream loop specialised to channel-id events: used as the common
form both counters are reduced to. -/
def c4chLoop (w : ℕ) : List (ℕ × ℕ) → List (ℕ × ℕ) → Counts → ℤ → ℤ
  | [], _, _, total => total
  | (t, p) :: evs, win, c, total =>
    let fc := flushI win c (cutoffOf t w)
    c4chLoop w evs (fc.1 ++ [(t, p)]) (incCh p fc.2)
      (total + get_window4coincs fc.2 p)

/-! ### C10: non-emptiness is a precondition of `count_4coinc_indiv` -/

/-- **C10.**  `count_4coinc_indiv` reads the first element of each of its
four inputs before the merge loop starts: in the total embedding the
out-of-bounds branch is avoided iff all four streams are non-empty, and a
call with an empty stream has no valid result. -/
theorem count_4coinc_indiv_requires_nonempty :
    (∀ (ts1 ts2 ts3 ts4 : List ℕ) (w : ℕ),
      (count_4coinc_indiv ts1 ts2 ts3 ts4 w).isSome ↔
        (ts1 ≠ [] ∧ ts2 ≠ [] ∧ ts3 ≠ [] ∧ ts4 ≠ [])) ∧
      count_4coinc_indiv [] [0] [0] [0] 1 = none := by
  refine ⟨fun ts1 ts2 ts3 ts4 w => ?_, rfl⟩
  cases ts1 <;> cases ts2 <;> cases ts3 <;> cases ts4 <;>
    simp [count_4coinc_indiv]

/-! ### C4: the total is accumulated in a 32-bit C `int` -/

set_option maxRecDepth 200000 in
/-- **C4 (refuting the 64-bit claim).**  216 events, each with all four
channel bits set, all inside one coincidence window (timestamps
`1000 … 1215`, `coincw_ns = 1000`): the true 4-fold coincidence count is
`216⁴ = 2176782336`, which exceeds `2³¹ − 1 = 2147483647` but is well inside
64-bit range.  The source accumulates and returns `total` as a C `int`
(32 bits): the returned value is the wrapped `-2118184960`, not the true
count. -/
theorem count_4coinc_overflows_int32 :
    count_4coinc ((List.range 216).map fun k => 1000 + k)
        (List.replicate 216 15) 1000 = 2176782336 ∧
      (2 : ℤ) ^ 31 - 1 < 2176782336 ∧ (2176782336 : ℤ) < 2 ^ 63 ∧
      count_4coinc_ret ((List.range 216).map fun k => 1000 + k)
        (List.replicate 216 15) 1000 = -2118184960 ∧
      (-2118184960 : ℤ) ≠ 2176782336 := by
  have h : count_4coinc ((List.range 216).map fun k => 1000 + k)
      (List.replicate 216 15) 1000 = 2176782336 := by decide
  refine ⟨h, by norm_num, by norm_num, ?_, by norm_num⟩
  rw [count_4coinc_ret, h]
  decide

/-! ### C6: concrete scenario 2 (one complete group, and two separated
groups) -/

/-- The 24 orders in which the four single-channel patterns can arrive. -/
def quadPerms : List (List ℕ) :=
  [[1, 2, 4, 8], [2, 1, 4, 8], [4, 2, 1, 8], [2, 4, 1, 8], [4, 1, 2, 8],
   [1, 4, 2, 8], [8, 4, 2, 1], [4, 8, 2, 1], [4, 2, 8, 1], [8, 2, 4, 1],
   [2, 8, 4, 1], [2, 4, 8, 1], [8, 1, 2, 4], [1, 8, 2, 4], [1, 2, 8, 4],
   [8, 2, 1, 4], [2, 8, 1, 4], [2, 1, 8, 4], [8, 1, 4, 2], [1, 8, 4, 2],
   [1, 4, 8, 2], [8, 4, 1, 2], [4, 8, 1, 2], [4, 1, 8, 2]]

theorem perm_quad_shape {ps : List ℕ} (hp : ps.Perm [1, 2, 4, 8]) :
    ∃ x0 x1 x2 x3, ps = [x0, x1, x2, x3] := by
  have hlen : ps.length = 4 := by simpa using hp.length_eq
  rcases ps with _ | ⟨x0, _ | ⟨x1, _ | ⟨x2, _ | ⟨x3, _ | ⟨x4, tl⟩⟩⟩⟩⟩
  · simp at hlen
  · simp at hlen
  · simp at hlen
  · simp at hlen
  · exact ⟨x0, x1, x2, x3, rfl⟩
  · simp at hlen

theorem perm_quad_mem {ps : List ℕ} (hp : ps.Perm [1, 2, 4, 8]) :
    ps ∈ quadPerms := by
  obtain ⟨a, b, c, d, rfl⟩ := perm_quad_shape hp
  have ha : a ∈ [1, 2, 4, 8] := hp.mem_iff.1 (List.mem_cons_self _ _)
  fin_cases ha <;>
  all_goals (
    have hb := (hp.trans (List.perm_cons_erase (by decide))).cons_inv
    simp only [List.erase_cons] at hb
    norm_num at hb
    have hbm : b ∈ _ := hb.mem_iff.1 (List.mem_cons_self _ _)
    fin_cases hbm <;>
    all_goals (
      have hc := (hb.trans (List.perm_cons_erase (by decide))).cons_inv
      simp only [List.erase_cons] at hc
      norm_num at hc
      have hcm : c ∈ _ := hc.mem_iff.1 (List.mem_cons_self _ _)
      fin_cases hcm <;>
      all_goals (
        have hd := (hc.trans (List.perm_cons_erase (by decide))).cons_inv
        simp only [List.erase_cons] at hd
        norm_num at hd
        subst hd
        decide)))

/-- Fold of the per-event count/increment step over a sequence of patterns:
the behaviour of the main loop while no event is flushed. -/
def cpFold : List ℕ → Counts × ℤ → Counts × ℤ
  | [], ct => ct
  | p :: ps, ct =>
    let cc := countPattern p ct.1
    cpFold ps (cc.1, ct.2 + cc.2)

theorem cpFold_shift : ∀ (ps : List ℕ) (c : Counts) (tot : ℤ),
    cpFold ps (c, tot) = ((cpFold ps (c, 0)).1, tot + (cpFold ps (c, 0)).2)
  | [], c, tot => by simp [cpFold]
  | p :: ps, c, tot => by
    simp only [cpFold]
    rw [cpFold_shift ps (countPattern p c).1 (tot + (countPattern p c).2),
      cpFold_shift ps (countPattern p c).1 (0 + (countPattern p c).2)]
    rw [Prod.mk.injEq]
    exact ⟨rfl, by ring⟩

/-- Processing the four distinct single-channel patterns from empty counts
yields exactly one new coincidence and counts `(1, 1, 1, 1)`. -/
theorem cpFold_quad0 {ps : List ℕ} (hp : ps.Perm [1, 2, 4, 8]) :
    cpFold ps (⟨0, 0, 0, 0⟩, 0) = (⟨1, 1, 1, 1⟩, 1) := by
  have hmem := perm_quad_mem hp
  fin_cases hmem <;> decide

/-- Flushing the four distinct single-channel patterns restores empty
counts. -/
theorem decPattern_quad {ps : List ℕ} (hp : ps.Perm [1, 2, 4, 8]) :
    ps.foldl (fun acc p => decPattern p acc) ⟨1, 1, 1, 1⟩ = ⟨0, 0, 0, 0⟩ := by
  have hmem := perm_quad_mem hp
  fin_cases hmem <;> decide

/-- Without unsigned underflow the cutoff is the plain difference. -/
theorem cutoffOf_eq {t w : ℕ} (hw : w ≤ t) (ht : t < 2 ^ 64) :
    cutoffOf t w = t - w := by
  have h64 : (2 : ℕ) ^ 64 = 18446744073709551616 := by norm_num
  rw [cutoffOf, h64]
  rw [h64] at ht
  omega

theorem flushP_skip {t0 q0 : ℕ} {win : List (ℕ × ℕ)} {c : Counts}
    {cutoff : ℕ} (h : ¬t0 ≤ cutoff) :
    flushP ((t0, q0) :: win) c cutoff = ((t0, q0) :: win, c) := by
  rw [flushP, if_neg h]

/-- One unfolding step of the main loop. -/
theorem c4Loop_cons (w t p : ℕ) (evs win : List (ℕ × ℕ)) (c : Counts)
    (total : ℤ) :
    c4Loop w ((t, p) :: evs) win c total =
      c4Loop w evs ((flushP win c (cutoffOf t w)).1 ++ [(t, p)])
        (countPattern p (flushP win c (cutoffOf t w)).2).1
        (total + (countPattern p (flushP win c (cutoffOf t w)).2).2) := rfl

theorem flushP_all : ∀ (win : List (ℕ × ℕ)) (c : Counts) (cutoff : ℕ),
    (∀ e ∈ win, e.1 ≤ cutoff) →
    flushP win c cutoff =
      ([], (win.map Prod.snd).foldl (fun acc p => decPattern p acc) c)
  | [], _, _, _ => rfl
  | (t, p) :: win, c, cutoff, h => by
    rw [flushP, if_pos (h (t, p) (List.mem_cons_self _ _))]
    exact flushP_all win _ cutoff (fun e he => h e (List.mem_cons_of_mem _ he))

/-- While no arriving event can evict the window head, the loop only
appends to the window and accumulates `cpFold`. -/
theorem c4Loop_no_flush (w : ℕ) :
    ∀ (evs1 evs2 : List (ℕ × ℕ)) (t0 q0 : ℕ) (win : List (ℕ × ℕ))
      (c : Counts) (tot : ℤ),
      (∀ e ∈ evs1, ¬t0 ≤ cutoffOf e.1 w) →
      c4Loop w (evs1 ++ evs2) ((t0, q0) :: win) c tot =
        c4Loop w evs2 (((t0, q0) :: win) ++ evs1)
          (cpFold (evs1.map Prod.snd) (c, tot)).1
          (cpFold (evs1.map Prod.snd) (c, tot)).2
  | [], evs2, t0, q0, win, c, tot, _ => by simp [cpFold]
  | (t, p) :: evs1, evs2, t0, q0, win, c, tot, hnf => by
    rw [List.cons_append]
    simp only [c4Loop]
    rw [flushP_skip (hnf (t, p) (List.mem_cons_self _ _))]
    have hrec := c4Loop_no_flush w evs1 evs2 t0 q0 (win ++ [(t, p)])
      (countPattern p c).1 (tot + (countPattern p c).2)
      (fun e he => hnf e (List.mem_cons_of_mem _ he))
    simp only [List.cons_append] at hrec ⊢
    rw [hrec]
    simp only [List.map_cons, cpFold, List.append_assoc, List.cons_append,
      List.nil_append]

/-- A complete group of events arriving into an empty window. -/
theorem c4Loop_group (w : ℕ) (t0 p0 : ℕ) (evs1 evs2 : List (ℕ × ℕ))
    (c : Counts) (tot : ℤ)
    (hnf : ∀ e ∈ evs1, ¬t0 ≤ cutoffOf e.1 w) :
    c4Loop w (((t0, p0) :: evs1) ++ evs2) [] c tot =
      c4Loop w evs2 ((t0, p0) :: evs1)
        (cpFold (p0 :: evs1.map Prod.snd) (c, tot)).1
        (cpFold (p0 :: evs1.map Prod.snd) (c, tot)).2 := by
  rw [List.cons_append]
  simp only [c4Loop, flushP]
  rw [show ([] : List (ℕ × ℕ)) ++ [(t0, p0)] = [(t0, p0)] from rfl,
    c4Loop_no_flush w evs1 evs2 t0 p0 [] (countPattern p0 c).1
      (tot + (countPattern p0 c).2) hnf]
  simp only [cpFold, List.cons_append, List.nil_append]

/-- **C6, counterexample.**  Four single-channel events on channels 1–4 at
times `0, 1, 2, 3`, all within `coincw_ns = 1000` of each other and no other
events: the claim demands a count of `1`, but the source computes
`cutoff = t - coincw_ns` in unsigned 64-bit arithmetic — for `t < coincw_ns`
the cutoff underflows to `≈ 2⁶⁴`, every previous event is flushed, and the
returned count is `0`. -/
theorem count_4coinc_small_timestamps_zero :
    count_4coinc [0, 1, 2, 3] [1, 2, 4, 8] 1000 = 0 ∧ (0 : ℤ) ≠ 1 :=
  ⟨by decide, by decide⟩

/-- **C6 (amended).**  Provided every timestamp is at least `coincw_ns` (so
the unsigned cutoff `t - coincw_ns` cannot underflow): four ascending events
carrying the four distinct single-channel patterns `{1, 2, 4, 8}` (channels
1–4) within one window give a count of 1, and two such complete groups
separated by more than `coincw_ns` give a count of 2. -/
theorem count_4coinc_scenario2 (w t0 t1 t2 t3 t4 t5 t6 t7 : ℕ)
    (ps qs : List ℕ) (hw : 0 < w) (hps : ps.Perm [1, 2, 4, 8])
    (hqs : qs.Perm [1, 2, 4, 8]) (hwt0 : w ≤ t0)
    (h01 : t0 ≤ t1) (h12 : t1 ≤ t2) (h23 : t2 ≤ t3) (h34 : t3 ≤ t4)
    (h45 : t4 ≤ t5) (h56 : t5 ≤ t6) (h67 : t6 ≤ t7)
    (hg1 : t3 - t0 < w) (hsep : t3 + w < t4) (hg2 : t7 - t4 < w)
    (hbound : t7 < 2 ^ 64) :
    count_4coinc [t0, t1, t2, t3] ps w = 1 ∧
      count_4coinc [t0, t1, t2, t3, t4, t5, t6, t7] (ps ++ qs) w = 2 := by
  obtain ⟨p0, p1, p2, p3, rfl⟩ := perm_quad_shape hps
  obtain ⟨q0, q1, q2, q3, rfl⟩ := perm_quad_shape hqs
  have hnf1 : ∀ e ∈ [(t1, p1), (t2, p2), (t3, p3)], ¬t0 ≤ cutoffOf e.1 w := by
    intro e he
    fin_cases he <;> (rw [cutoffOf_eq (by omega) (by omega)]; omega)
  constructor
  · rw [count_4coinc, show [t0, t1, t2, t3].zip [p0, p1, p2, p3] =
      ((t0, p0) :: [(t1, p1), (t2, p2), (t3, p3)]) ++ [] from rfl]
    rw [c4Loop_group w t0 p0 [(t1, p1), (t2, p2), (t3, p3)] []
      ⟨0, 0, 0, 0⟩ 0 hnf1]
    rw [show (p0 :: List.map Prod.snd [(t1, p1), (t2, p2), (t3, p3)]) =
      [p0, p1, p2, p3] from rfl, cpFold_quad0 hps]
    rfl
  · rw [count_4coinc,
      show [t0, t1, t2, t3, t4, t5, t6, t7].zip
          ([p0, p1, p2, p3] ++ [q0, q1, q2, q3]) =
        ((t0, p0) :: [(t1, p1), (t2, p2), (t3, p3)]) ++
          [(t4, q0), (t5, q1), (t6, q2), (t7, q3)] from rfl]
    rw [c4Loop_group w t0 p0 [(t1, p1), (t2, p2), (t3, p3)] _
      ⟨0, 0, 0, 0⟩ 0 hnf1]
    rw [show (p0 :: List.map Prod.snd [(t1, p1), (t2, p2), (t3, p3)]) =
      [p0, p1, p2, p3] from rfl, cpFold_quad0 hps]
    dsimp only
    rw [c4Loop_cons]
    rw [flushP_all _ _ _ (by
      intro e he
      fin_cases he <;> (rw [cutoffOf_eq (by omega) (by omega)]; omega))]
    dsimp only
    rw [show (List.map Prod.snd
        ((t0, p0) :: [(t1, p1), (t2, p2), (t3, p3)])) = [p0, p1, p2, p3]
      from rfl, decPattern_quad hps]
    rw [show ([] : List (ℕ × ℕ)) ++ [(t4, q0)] = [(t4, q0)] from rfl]
    rw [show ([(t5, q1), (t6, q2), (t7, q3)] : List (ℕ × ℕ)) =
      [(t5, q1), (t6, q2), (t7, q3)] ++ [] from (List.append_nil _).symm]
    rw [c4Loop_no_flush w [(t5, q1), (t6, q2), (t7, q3)] [] t4 q0 []
      (countPattern q0 ⟨0, 0, 0, 0⟩).1 (1 + (countPattern q0 ⟨0, 0, 0, 0⟩).2)
      (by
        intro e he
        fin_cases he <;> (rw [cutoffOf_eq (by omega) (by omega)]; omega))]
    have h2 : cpFold [q0, q1, q2, q3] (⟨0, 0, 0, 0⟩, 1) = (⟨1, 1, 1, 1⟩, 2) := by
      rw [cpFold_shift, cpFold_quad0 hqs]
      norm_num
    exact congrArg Prod.snd h2

/-! ### C2: equivalence of the two counters

`count_4coinc_indiv` is reduced in two steps to `count_4coinc` run on the
time-ordered interleaving of the four channel streams: first the
priority-queue merge is shown to process events in exactly the sorted
interleaved order (`indivLoop_eq_c4chLoop`), then the channel-id loop body
is identified with the bitmask loop body on single-bit patterns
(`c4chLoop_eq_c4Loop`). -/

theorem evLE_refl (x : ℕ × ℕ) : evLE x x := Or.inr ⟨rfl, le_refl _⟩

theorem evLE_total (x y : ℕ × ℕ) : evLE x y ∨ evLE y x := by
  rw [evLE, evLE]
  omega

theorem evLE_trans {x y z : ℕ × ℕ} (h1 : evLE x y) (h2 : evLE y z) :
    evLE x z := by
  rw [evLE] at h1 h2 ⊢
  omega

theorem evLE_antisymm {x y : ℕ × ℕ} (h1 : evLE x y) (h2 : evLE y x) :
    x = y := by
  rw [evLE] at h1 h2
  have hx : x.1 = y.1 ∧ x.2 = y.2 := by omega
  exact Prod.ext hx.1 hx.2

theorem evLE_of_fst_le {x : ℕ × ℕ} {t t' ch : ℕ} (h : evLE x (t, ch))
    (hle : t ≤ t') : evLE x (t', ch) := by
  rw [evLE] at h ⊢
  simp only at h ⊢
  omega

theorem pqInsert_perm (x : ℕ × ℕ) :
    ∀ l : List (ℕ × ℕ), (pqInsert x l).Perm (x :: l)
  | [] => List.Perm.refl _
  | y :: l => by
    rw [pqInsert]
    by_cases h : evLE x y
    · rw [if_pos h]
    · rw [if_neg h]
      exact ((pqInsert_perm x l).cons y).trans (List.Perm.swap x y l)

theorem pqInsert_length (x : ℕ × ℕ) (l : List (ℕ × ℕ)) :
    (pqInsert x l).length = l.length + 1 := by
  rw [(pqInsert_perm x l).length_eq]
  rfl

theorem pqInsert_sorted (x : ℕ × ℕ) :
    ∀ {l : List (ℕ × ℕ)}, l.Sorted evLE → (pqInsert x l).Sorted evLE
  | [], _ => List.sorted_singleton x
  | y :: l, hs => by
    rw [List.sorted_cons] at hs
    rw [pqInsert]
    by_cases h : evLE x y
    · rw [if_pos h, List.sorted_cons]
      refine ⟨?_, List.sorted_cons.2 hs⟩
      intro b hb
      rcases List.mem_cons.1 hb with rfl | hb
      · exact h
      · exact evLE_trans h (hs.1 b hb)
    · rw [if_neg h, List.sorted_cons]
      refine ⟨?_, pqInsert_sorted x hs.2⟩
      intro b hb
      rcases List.mem_cons.1 ((pqInsert_perm x l).mem_iff.1 hb) with rfl | hb
      · exact (evLE_total b y).resolve_left h
      · exact hs.1 b hb

/-- Channel tagging: the single-channel stream `ts` as `(t, ch)` events. -/
def tagCh (ch : ℕ) (ts : List ℕ) : List (ℕ × ℕ) := ts.map fun t => (t, ch)

/-- Events of the state that are still to be processed: the queue contents
plus the unread suffixes of the four inputs. -/
def IndivSt.pending (s : IndivSt) : List (ℕ × ℕ) :=
  s.stream ++ tagCh 0 s.r0 ++ tagCh 1 s.r1 ++ tagCh 2 s.r2 ++ tagCh 3 s.r3

/-- Loop invariant of `count_4coinc_indiv`. -/
structure IndivInv (s : IndivSt) : Prop where
  sorted : s.stream.Sorted evLE
  uniq : s.stream.Pairwise fun a b => a.2 ≠ b.2
  chlt : ∀ e ∈ s.stream, e.2 < 4
  bound : ∀ e ∈ s.stream, ∀ t' ∈ s.rem e.2, e.1 ≤ t'
  covered : ∀ ch, ch < 4 → s.rem ch ≠ [] → ∃ e ∈ s.stream, e.2 = ch
  remSorted : ∀ ch, ch < 4 → (s.rem ch).Sorted (· ≤ ·)

theorem replenish_spec (s : IndivSt) (p : ℕ) (hp : p < 4) :
    (s.rem p = [] ∧ replenish s p = s) ∨
      ∃ t r, s.rem p = t :: r ∧
        (replenish s p).stream = pqInsert (t, p) s.stream ∧
        (replenish s p).rem p = r ∧
        (∀ q, q < 4 → q ≠ p → (replenish s p).rem q = s.rem q) ∧
        (replenish s p).window = s.window ∧
        (replenish s p).counts = s.counts ∧
        (replenish s p).total = s.total := by
  interval_cases p
  · rcases hr : s.r0 with - | ⟨t, r⟩
    · exact Or.inl ⟨hr, by simp [replenish, hr]⟩
    · refine Or.inr ⟨t, r, hr, ?_, ?_, ?_, ?_, ?_, ?_⟩ <;>
        first
        | (intro q hq1 hq2
           interval_cases q <;>
             first
             | exact absurd rfl hq2
             | simp [replenish, hr, IndivSt.rem])
        | simp [replenish, hr, IndivSt.rem]
  · rcases hr : s.r1 with - | ⟨t, r⟩
    · exact Or.inl ⟨hr, by simp [replenish, hr]⟩
    · refine Or.inr ⟨t, r, hr, ?_, ?_, ?_, ?_, ?_, ?_⟩ <;>
        first
        | (intro q hq1 hq2
           interval_cases q <;>
             first
             | exact absurd rfl hq2
             | simp [replenish, hr, IndivSt.rem])
        | simp [replenish, hr, IndivSt.rem]
  · rcases hr : s.r2 with - | ⟨t, r⟩
    · exact Or.inl ⟨hr, by simp [replenish, hr]⟩
    · refine Or.inr ⟨t, r, hr, ?_, ?_, ?_, ?_, ?_, ?_⟩ <;>
        first
        | (intro q hq1 hq2
           interval_cases q <;>
             first
             | exact absurd rfl hq2
             | simp [replenish, hr, IndivSt.rem])
        | simp [replenish, hr, IndivSt.rem]
  · rcases hr : s.r3 with - | ⟨t, r⟩
    · exact Or.inl ⟨hr, by simp [replenish, hr]⟩
    · refine Or.inr ⟨t, r, hr, ?_, ?_, ?_, ?_, ?_, ?_⟩ <;>
        first
        | (intro q hq1 hq2
           interval_cases q <;>
             first
             | exact absurd rfl hq2
             | simp [replenish, hr, IndivSt.rem])
        | simp [replenish, hr, IndivSt.rem]

theorem replenish_pending (s : IndivSt) (p : ℕ) (hp : p < 4) :
    (replenish s p).pending.Perm s.pending := by
  have hcoe : ∀ l1 l2 : List (ℕ × ℕ), (↑l1 : Multiset (ℕ × ℕ)) = ↑l2 →
      l1.Perm l2 := fun l1 l2 h => Multiset.coe_eq_coe.1 h
  interval_cases p
  · rcases hr : s.r0 with - | ⟨t, r⟩
    · rw [show replenish s 0 = s from by simp [replenish, hr]]
    · apply hcoe
      rw [show replenish s 0 =
          { s with stream := pqInsert (t, 0) s.stream, r0 := r } from by
        simp [replenish, hr]]
      rw [IndivSt.pending, IndivSt.pending, hr]
      simp only [← Multiset.coe_add,
        Multiset.coe_eq_coe.2 (pqInsert_perm (t, 0) s.stream),
        show tagCh 0 (t :: r) = (t, 0) :: tagCh 0 r from rfl,
        ← Multiset.cons_coe, ← Multiset.singleton_add]
      abel
  · rcases hr : s.r1 with - | ⟨t, r⟩
    · rw [show replenish s 1 = s from by simp [replenish, hr]]
    · apply hcoe
      rw [show replenish s 1 =
          { s with stream := pqInsert (t, 1) s.stream, r1 := r } from by
        simp [replenish, hr]]
      rw [IndivSt.pending, IndivSt.pending, hr]
      simp only [← Multiset.coe_add,
        Multiset.coe_eq_coe.2 (pqInsert_perm (t, 1) s.stream),
        show tagCh 1 (t :: r) = (t, 1) :: tagCh 1 r from rfl,
        ← Multiset.cons_coe, ← Multiset.singleton_add]
      abel
  · rcases hr : s.r2 with - | ⟨t, r⟩
    · rw [show replenish s 2 = s from by simp [replenish, hr]]
    · apply hcoe
      rw [show replenish s 2 =
          { s with stream := pqInsert (t, 2) s.stream, r2 := r } from by
        simp [replenish, hr]]
      rw [IndivSt.pending, IndivSt.pending, hr]
      simp only [← Multiset.coe_add,
        Multiset.coe_eq_coe.2 (pqInsert_perm (t, 2) s.stream),
        show tagCh 2 (t :: r) = (t, 2) :: tagCh 2 r from rfl,
        ← Multiset.cons_coe, ← Multiset.singleton_add]
      abel
  · rcases hr : s.r3 with - | ⟨t, r⟩
    · rw [show replenish s 3 = s from by simp [replenish, hr]]
    · apply hcoe
      rw [show replenish s 3 =
          { s with stream := pqInsert (t, 3) s.stream, r3 := r } from by
        simp [replenish, hr]]
      rw [IndivSt.pending, IndivSt.pending, hr]
      simp only [← Multiset.coe_add,
        Multiset.coe_eq_coe.2 (pqInsert_perm (t, 3) s.stream),
        show tagCh 3 (t :: r) = (t, 3) :: tagCh 3 r from rfl,
        ← Multiset.cons_coe, ← Multiset.singleton_add]
      abel

/-- One unfolding step of the channel-id loop. -/
theorem c4chLoop_cons (w t p : ℕ) (evs win : List (ℕ × ℕ)) (c : Counts)
    (total : ℤ) :
    c4chLoop w ((t, p) :: evs) win c total =
      c4chLoop w evs ((flushI win c (cutoffOf t w)).1 ++ [(t, p)])
        (incCh p (flushI win c (cutoffOf t w)).2)
        (total + get_window4coincs (flushI win c (cutoffOf t w)).2 p) := rfl

/-- The head of the queue is `evLE`-below every pending event. -/
theorem head_min_pending {s : IndivSt} (hinv : IndivInv s) {t p : ℕ}
    {rest : List (ℕ × ℕ)} (hstream : s.stream = (t, p) :: rest) :
    ∀ y ∈ s.pending, evLE (t, p) y := by
  have hstr : ∀ e ∈ s.stream, evLE (t, p) e := by
    intro e he
    rw [hstream] at he
    rcases List.mem_cons.1 he with rfl | he
    · exact evLE_refl _
    · have hsorted := hinv.sorted
      rw [hstream, List.sorted_cons] at hsorted
      exact hsorted.1 e he
  have htag : ∀ ch, ch < 4 → ∀ t' ∈ s.rem ch, evLE (t, p) (t', ch) := by
    intro ch hch t' ht'
    obtain ⟨e, he, hech⟩ := hinv.covered ch hch (by
      intro h0
      rw [h0] at ht'
      exact absurd ht' (List.not_mem_nil _))
    obtain ⟨et, ech⟩ := e
    obtain rfl : ech = ch := hech
    exact evLE_of_fst_le (hstr (et, ech) he)
      (hinv.bound (et, ech) he t' ht')
  intro y hy
  rw [IndivSt.pending] at hy
  simp only [List.mem_append] at hy
  rcases hy with ((((hy | hy) | hy) | hy) | hy)
  · exact hstr y hy
  · obtain ⟨t', ht', rfl⟩ := List.mem_map.1 hy
    exact htag 0 (by omega) t' ht'
  · obtain ⟨t', ht', rfl⟩ := List.mem_map.1 hy
    exact htag 1 (by omega) t' ht'
  · obtain ⟨t', ht', rfl⟩ := List.mem_map.1 hy
    exact htag 2 (by omega) t' ht'
  · obtain ⟨t', ht', rfl⟩ := List.mem_map.1 hy
    exact htag 3 (by omega) t' ht'

/-- Refinement of the priority-queue merge: with the invariant, running
`indivLoop` equals running the plain channel-id loop over the sorted
interleaving of all pending events. -/
theorem indivLoop_eq_c4chLoop (w : ℕ) :
    ∀ (fuel : ℕ) (s : IndivSt) (evs : List (ℕ × ℕ)),
      s.pending.length ≤ fuel → IndivInv s → evs.Sorted evLE →
      evs.Perm s.pending →
      indivLoop w fuel s = c4chLoop w evs s.window s.counts s.total := by
  intro fuel
  induction fuel with
  | zero =>
    intro s evs hlen hinv hsort hperm
    have hpend : s.pending = [] :=
      List.eq_nil_of_length_eq_zero (Nat.le_zero.1 hlen)
    rw [hpend] at hperm
    rw [hperm.eq_nil, indivLoop, c4chLoop]
  | succ fuel ih =>
    intro s evs hlen hinv hsort hperm
    rcases hstream : s.stream with - | ⟨⟨t, p⟩, rest⟩
    · have hrnil : ∀ ch, ch < 4 → s.rem ch = [] := by
        intro ch hch
        by_contra h
        obtain ⟨e, he, -⟩ := hinv.covered ch hch h
        rw [hstream] at he
        exact absurd he (List.not_mem_nil _)
      have hpend : s.pending = [] := by
        rw [IndivSt.pending, hstream,
          show s.r0 = s.rem 0 from rfl, show s.r1 = s.rem 1 from rfl,
          show s.r2 = s.rem 2 from rfl, show s.r3 = s.rem 3 from rfl,
          hrnil 0 (by omega), hrnil 1 (by omega), hrnil 2 (by omega),
          hrnil 3 (by omega)]
        rfl
      rw [hpend] at hperm
      rw [hperm.eq_nil, c4chLoop]
      simp only [indivLoop, hstream]
    · have hp4 : p < 4 := hinv.chlt (t, p) (by
        rw [hstream]
        exact List.mem_cons_self _ _)
      have hmin := head_min_pending hinv hstream
      have hheadmem : (t, p) ∈ s.pending := by
        rw [IndivSt.pending, hstream]
        simp
      have hpendcons : s.pending =
          (t, p) :: ({ s with stream := rest } : IndivSt).pending := by
        rw [IndivSt.pending, IndivSt.pending, hstream]
        rfl
      obtain ⟨evs', rfl⟩ : ∃ evs', evs = (t, p) :: evs' := by
        rcases hevs : evs with - | ⟨hd, evs'⟩
        · rw [hevs, hpendcons] at hperm
          exact absurd hperm.symm.eq_nil (List.cons_ne_nil _ _)
        · refine ⟨evs', ?_⟩
          have hhdmem : hd ∈ s.pending := by
            rw [← hperm.mem_iff, hevs]
            exact List.mem_cons_self _ _
          have h1 := hmin hd hhdmem
          have h2 : (t, p) ∈ hd :: evs' := by
            rw [← hevs, hperm.mem_iff]
            exact hheadmem
          rcases List.mem_cons.1 h2 with heq | hmem
          · rw [heq]
          · have h3 : evLE hd (t, p) := by
              have hsort' := hsort
              rw [hevs, List.sorted_cons] at hsort'
              exact hsort'.1 (t, p) hmem
            rw [evLE_antisymm h3 h1]
      have hperm2 : evs'.Perm ({ s with stream := rest } : IndivSt).pending :=
        (hpendcons ▸ hperm).cons_inv
      have hsort' : evs'.Sorted evLE := (List.sorted_cons.1 hsort).2
      have hlen' : ({ s with stream := rest } : IndivSt).pending.length ≤
          fuel := by
        have := congrArg List.length hpendcons
        simp only [List.length_cons] at this
        omega
      -- the invariant and pending permutation for the replenished state
      rcases replenish_spec { s with stream := rest } p hp4 with
        ⟨hrnil, heq⟩ | ⟨t', r', hr', hstr', hremp, hremq, hwin, hcnt, htot⟩
      · -- channel p exhausted: the state is just the popped one
        have hinv1 : IndivInv { s with stream := rest } := by
          have hsorted := hinv.sorted
          have huniq := hinv.uniq
          rw [hstream, List.sorted_cons] at hsorted
          rw [hstream, List.pairwise_cons] at huniq
          refine ⟨hsorted.2, huniq.2, ?_, ?_, ?_, hinv.remSorted⟩
          · intro e he
            exact hinv.chlt e (by rw [hstream]; exact List.mem_cons_of_mem _ he)
          · intro e he
            exact hinv.bound e (by rw [hstream]; exact List.mem_cons_of_mem _ he)
          · intro ch hch hne
            obtain ⟨e, he, hech⟩ := hinv.covered ch hch hne
            rw [hstream] at he
            rcases List.mem_cons.1 he with rfl | he
            · exact absurd (hech ▸ hrnil) hne
            · exact ⟨e, he, hech⟩
        simp only [indivLoop, hstream, heq]
        rw [c4chLoop_cons]
        exact ih
          { s with
            stream := rest,
            window := (flushI s.window s.counts (cutoffOf t w)).1 ++ [(t, p)],
            counts := incCh p (flushI s.window s.counts (cutoffOf t w)).2,
            total := s.total +
              get_window4coincs (flushI s.window s.counts (cutoffOf t w)).2 p }
          evs' hlen' ⟨hinv1.sorted, hinv1.uniq, hinv1.chlt, hinv1.bound,
            hinv1.covered, hinv1.remSorted⟩ hsort' hperm2
      · -- channel p replenished with its next timestamp
        have hsorted := hinv.sorted
        have huniq := hinv.uniq
        rw [hstream, List.sorted_cons] at hsorted
        rw [hstream, List.pairwise_cons] at huniq
        have hmemrest : ∀ e, e ∈ rest → e ∈ s.stream := by
          intro e he
          rw [hstream]
          exact List.mem_cons_of_mem _ he
        have hinv1 : IndivInv (replenish { s with stream := rest } p) := by
          refine ⟨?_, ?_, ?_, ?_, ?_, ?_⟩
          · rw [hstr']
            exact pqInsert_sorted _ hsorted.2
          · rw [hstr']
            refine ((pqInsert_perm (t', p) rest).pairwise_iff
              (fun h => Ne.symm h)).2 ?_
            exact List.pairwise_cons.2 ⟨fun e he => huniq.1 e he, huniq.2⟩
          · intro e he
            rw [hstr'] at he
            rcases List.mem_cons.1 ((pqInsert_perm _ _).mem_iff.1 he)
              with rfl | he
            · exact hp4
            · exact hinv.chlt e (hmemrest e he)
          · intro e he t'' ht''
            rw [hstr'] at he
            rcases List.mem_cons.1 ((pqInsert_perm _ _).mem_iff.1 he)
              with rfl | he
            · rw [hremp] at ht''
              have hsr := hinv.remSorted p hp4
              rw [show ({ s with stream := rest } : IndivSt).rem p = s.rem p
                from rfl] at hr'
              rw [hr', List.sorted_cons] at hsr
              exact hsr.1 t'' ht''
            · have hech : e.2 ≠ p := Ne.symm (huniq.1 e he)
              rw [hremq e.2 (hinv.chlt e (hmemrest e he)) hech] at ht''
              exact hinv.bound e (hmemrest e he) t'' ht''
          · intro ch hch hne
            by_cases hchp : ch = p
            · refine ⟨(t', p), ?_, hchp.symm⟩
              rw [hstr']
              exact (pqInsert_perm _ _).mem_iff.2 (List.mem_cons_self _ _)
            · rw [hremq ch hch hchp] at hne
              obtain ⟨e, he, hech⟩ := hinv.covered ch hch hne
              rw [hstream] at he
              rcases List.mem_cons.1 he with rfl | he
              · exact absurd hech.symm hchp
              · refine ⟨e, ?_, hech⟩
                rw [hstr']
                exact (pqInsert_perm _ _).mem_iff.2 (List.mem_cons_of_mem _ he)
          · intro ch hch
            by_cases hchp : ch = p
            · rw [hchp, hremp]
              have hsr := hinv.remSorted p hp4
              rw [show ({ s with stream := rest } : IndivSt).rem p = s.rem p
                from rfl] at hr'
              rw [hr', List.sorted_cons] at hsr
              exact hsr.2
            · rw [hremq ch hch hchp]
              exact hinv.remSorted ch hch
        have hperm3 : evs'.Perm
            (replenish { s with stream := rest } p).pending :=
          hperm2.trans (replenish_pending _ p hp4).symm
        have hlen3 :
            (replenish { s with stream := rest } p).pending.length ≤ fuel := by
          rw [(replenish_pending _ p hp4).length_eq]
          exact hlen'
        simp only [indivLoop, hstream]
        rw [hwin, hcnt, htot]
        rw [c4chLoop_cons]
        exact ih
          { (replenish { s with stream := rest } p) with
            window := (flushI s.window s.counts (cutoffOf t w)).1 ++ [(t, p)],
            counts := incCh p (flushI s.window s.counts (cutoffOf t w)).2,
            total := s.total +
              get_window4coincs (flushI s.window s.counts (cutoffOf t w)).2 p }
          evs' hlen3 ⟨hinv1.sorted, hinv1.uniq, hinv1.chlt, hinv1.bound,
            hinv1.covered, hinv1.remSorted⟩ hsort' hperm3

/-! ### C2: the two counters agree on a common event set -/

/-- On the single-bit pattern `2 ^ ch` the pattern flush decrement is the
channel-id decrement. -/
theorem decPattern_two_pow {ch : ℕ} (h : ch < 4) (c : Counts) :
    decPattern (2 ^ ch) c = decCh ch c := by
  interval_cases ch <;> rfl

/-- On the single-bit pattern `2 ^ ch` the count/increment step reduces to
the channel-id step. -/
theorem countPattern_two_pow {ch : ℕ} (h : ch < 4) (c : Counts) :
    countPattern (2 ^ ch) c = (incCh ch c, get_window4coincs c ch) := by
  interval_cases ch <;> simp +decide [countPattern, List.range_succ]

/-- Entries surviving the flush come from the original window. -/
theorem flushI_subset : ∀ (win : List (ℕ × ℕ)) (c : Counts) (cutoff : ℕ),
    ∀ e ∈ (flushI win c cutoff).1, e ∈ win
  | [], _, _, _, he => he
  | (t, ch) :: win, c, cutoff, e, he => by
    rw [flushI] at he
    by_cases ht : t ≤ cutoff
    · rw [if_pos ht] at he
      exact List.mem_cons_of_mem _ (flushI_subset win _ cutoff e he)
    · rw [if_neg ht] at he
      exact he

/-- The channel-id flush matches the bitmask flush applied to the
corresponding single-bit pattern entries. -/
theorem flushI_eq_flushP : ∀ (win : List (ℕ × ℕ)) (c : Counts) (cutoff : ℕ),
    (∀ e ∈ win, e.2 < 4) →
    flushP (win.map fun e => (e.1, 2 ^ e.2)) c cutoff =
      ((flushI win c cutoff).1.map fun e => (e.1, 2 ^ e.2),
        (flushI win c cutoff).2)
  | [], _, _, _ => rfl
  | (t, ch) :: win, c, cutoff, h => by
    rw [List.map_cons, flushP, flushI]
    by_cases ht : t ≤ cutoff
    · rw [if_pos ht, if_pos ht,
        decPattern_two_pow (h (t, ch) (List.mem_cons_self _ _)) c]
      exact flushI_eq_flushP win _ cutoff
        (fun e he => h e (List.mem_cons_of_mem _ he))
    · rw [if_neg ht, if_neg ht]
      simp

/-- The channel-id loop agrees with the bitmask loop once every channel id
is replaced by its single-bit pattern. -/
theorem c4chLoop_eq_c4Loop (w : ℕ) :
    ∀ (evs win : List (ℕ × ℕ)) (c : Counts) (total : ℤ),
    (∀ e ∈ evs, e.2 < 4) → (∀ e ∈ win, e.2 < 4) →
    c4chLoop w evs win c total =
      c4Loop w (evs.map fun e => (e.1, 2 ^ e.2))
        (win.map fun e => (e.1, 2 ^ e.2)) c total
  | [], _, _, _, _, _ => rfl
  | (t, p) :: evs, win, c, total, he, hw => by
    have hp4 : p < 4 := he (t, p) (List.mem_cons_self _ _)
    rw [c4chLoop_cons, List.map_cons, c4Loop_cons,
      flushI_eq_flushP win c (cutoffOf t w) hw,
      countPattern_two_pow hp4]
    have hw' : ∀ e ∈ (flushI win c (cutoffOf t w)).1 ++ [(t, p)],
        e.2 < 4 := by
      intro e hein
      rcases List.mem_append.1 hein with hein | hein
      · exact hw e (flushI_subset win c (cutoffOf t w) e hein)
      · rw [List.mem_singleton.1 hein]
        exact hp4
    have he' : ∀ e ∈ evs, e.2 < 4 :=
      fun e hein => he e (List.mem_cons_of_mem _ hein)
    rw [c4chLoop_eq_c4Loop w evs ((flushI win c (cutoffOf t w)).1 ++ [(t, p)])
      (incCh p (flushI win c (cutoffOf t w)).2)
      (total + get_window4coincs (flushI win c (cutoffOf t w)).2 p) he' hw',
      List.map_append]
    rfl

/-- Witness for `count_4coinc_scenario2`. -/
theorem count_4coinc_scenario2_witness :
    count_4coinc [1000, 1001, 1002, 1003] [1, 2, 4, 8] 10 = 1 ∧
      count_4coinc [1000, 1001, 1002, 1003, 2000, 2001, 2002, 2003]
        ([1, 2, 4, 8] ++ [2, 1, 8, 4]) 10 = 2 :=
  count_4coinc_scenario2 10 1000 1001 1002 1003 2000 2001 2002 2003
    [1, 2, 4, 8] [2, 1, 8, 4] (by norm_num) (by decide) (by decide)
    (by norm_num) (by norm_num) (by norm_num) (by norm_num) (by norm_num)
    (by norm_num) (by norm_num) (by norm_num) (by norm_num) (by norm_num)
    (by norm_num) (by norm_num)

/-- **C2, counterexample.**  With an empty channel-4 stream the event set
is perfectly representable as an interleaved stream (three events, one per
remaining channel), yet `count_4coinc_indiv` reads `ts4[0]` out of bounds
while `count_4coinc` returns the total `0`: the two presentations do not
return identical totals for every common event set. -/
theorem count_4coinc_indiv_empty_channel_mismatch :
    count_4coinc_indiv [10] [10] [10] [] 5 = none ∧
      count_4coinc [10, 10, 10] [1, 2, 4] 5 = 0 := by
  exact ⟨rfl, by decide⟩

/-- **C2 (amended).**  On four individually ascending and nonempty channel
streams, `count_4coinc_indiv` returns exactly the `count_4coinc` total of
the time-ordered interleaving `evs` of the four tagged streams, with
channel `k` presented to `count_4coinc` as the single-bit pattern
`2 ^ k`. -/
theorem count_4coinc_indiv_eq_interleaved (ts1 ts2 ts3 ts4 : List ℕ)
    (w : ℕ) (evs : List (ℕ × ℕ))
    (h1 : ts1.Sorted (· ≤ ·)) (h2 : ts2.Sorted (· ≤ ·))
    (h3 : ts3.Sorted (· ≤ ·)) (h4 : ts4.Sorted (· ≤ ·))
    (hn1 : ts1 ≠ []) (hn2 : ts2 ≠ []) (hn3 : ts3 ≠ []) (hn4 : ts4 ≠ [])
    (hsort : evs.Sorted evLE)
    (hperm : evs.Perm
      (tagCh 0 ts1 ++ tagCh 1 ts2 ++ tagCh 2 ts3 ++ tagCh 3 ts4)) :
    count_4coinc_indiv ts1 ts2 ts3 ts4 w =
      some (count_4coinc (evs.map Prod.fst)
        (evs.map fun e => 2 ^ e.2) w) := by
  obtain ⟨a1, r1, rfl⟩ := List.exists_cons_of_ne_nil hn1
  obtain ⟨a2, r2, rfl⟩ := List.exists_cons_of_ne_nil hn2
  obtain ⟨a3, r3, rfl⟩ := List.exists_cons_of_ne_nil hn3
  obtain ⟨a4, r4, rfl⟩ := List.exists_cons_of_ne_nil hn4
  have hcoe : ∀ l1 l2 : List (ℕ × ℕ), (↑l1 : Multiset (ℕ × ℕ)) = ↑l2 →
      l1.Perm l2 := fun l1 l2 h => Multiset.coe_eq_coe.1 h
  have hch : ∀ e ∈ evs, e.2 < 4 := by
    intro e he
    have hm := hperm.mem_iff.1 he
    simp only [List.mem_append, tagCh, List.mem_map] at hm
    rcases hm with ((⟨x, _, rfl⟩ | ⟨x, _, rfl⟩) | ⟨x, _, rfl⟩) | ⟨x, _, rfl⟩ <;>
      norm_num
  have hq : (pqInsert (a4, 3) (pqInsert (a3, 2) (pqInsert (a2, 1)
      [(a1, 0)]))).Perm [(a1, 0), (a2, 1), (a3, 2), (a4, 3)] := by
    apply hcoe
    simp only [Multiset.coe_eq_coe.2 (pqInsert_perm (a4, 3)
        (pqInsert (a3, 2) (pqInsert (a2, 1) [(a1, 0)]))),
      Multiset.coe_eq_coe.2 (pqInsert_perm (a3, 2)
        (pqInsert (a2, 1) [(a1, 0)])),
      Multiset.coe_eq_coe.2 (pqInsert_perm (a2, 1) [(a1, 0)]),
      ← Multiset.cons_coe, ← Multiset.singleton_add, Multiset.coe_nil]
    abel
  have hpendeq : (⟨pqInsert (a4, 3) (pqInsert (a3, 2) (pqInsert (a2, 1)
        [(a1, 0)])), r1, r2, r3, r4, [], ⟨0, 0, 0, 0⟩, 0⟩ : IndivSt).pending =
      pqInsert (a4, 3) (pqInsert (a3, 2) (pqInsert (a2, 1) [(a1, 0)])) ++
        tagCh 0 r1 ++ tagCh 1 r2 ++ tagCh 2 r3 ++ tagCh 3 r4 := rfl
  have hpend : evs.Perm
      (⟨pqInsert (a4, 3) (pqInsert (a3, 2) (pqInsert (a2, 1) [(a1, 0)])),
        r1, r2, r3, r4, [], ⟨0, 0, 0, 0⟩, 0⟩ : IndivSt).pending := by
    refine hperm.trans (hcoe _ _ ?_)
    rw [hpendeq]
    simp only [← Multiset.coe_add,
      Multiset.coe_eq_coe.2 (pqInsert_perm (a4, 3)
        (pqInsert (a3, 2) (pqInsert (a2, 1) [(a1, 0)]))),
      Multiset.coe_eq_coe.2 (pqInsert_perm (a3, 2)
        (pqInsert (a2, 1) [(a1, 0)])),
      Multiset.coe_eq_coe.2 (pqInsert_perm (a2, 1) [(a1, 0)]),
      show tagCh 0 (a1 :: r1) = (a1, 0) :: tagCh 0 r1 from rfl,
      show tagCh 1 (a2 :: r2) = (a2, 1) :: tagCh 1 r2 from rfl,
      show tagCh 2 (a3 :: r3) = (a3, 2) :: tagCh 2 r3 from rfl,
      show tagCh 3 (a4 :: r4) = (a4, 3) :: tagCh 3 r4 from rfl,
      ← Multiset.cons_coe, ← Multiset.singleton_add, Multiset.coe_nil]
    abel
  have hs1 := List.sorted_cons.1 h1
  have hs2 := List.sorted_cons.1 h2
  have hs3 := List.sorted_cons.1 h3
  have hs4 := List.sorted_cons.1 h4
  have hinv : IndivInv
      ⟨pqInsert (a4, 3) (pqInsert (a3, 2) (pqInsert (a2, 1) [(a1, 0)])),
        r1, r2, r3, r4, [], ⟨0, 0, 0, 0⟩, 0⟩ := by
    refine ⟨?_, ?_, ?_, ?_, ?_, ?_⟩
    · exact pqInsert_sorted _ (pqInsert_sorted _ (pqInsert_sorted _
        (List.sorted_singleton _)))
    · refine (hq.pairwise_iff fun h => Ne.symm h).2 ?_
      norm_num [List.pairwise_cons]
    · intro e he
      rw [hq.mem_iff] at he
      simp only [List.mem_cons, List.not_mem_nil, or_false] at he
      rcases he with rfl | rfl | rfl | rfl <;> norm_num
    · intro e he t' ht'
      rw [hq.mem_iff] at he
      simp only [List.mem_cons, List.not_mem_nil, or_false] at he
      rcases he with rfl | rfl | rfl | rfl
      · exact hs1.1 t' ht'
      · exact hs2.1 t' ht'
      · exact hs3.1 t' ht'
      · exact hs4.1 t' ht'
    · intro ch hch4 hne
      interval_cases ch
      · exact ⟨(a1, 0), hq.mem_iff.2 (by norm_num), rfl⟩
      · exact ⟨(a2, 1), hq.mem_iff.2 (by norm_num), rfl⟩
      · exact ⟨(a3, 2), hq.mem_iff.2 (by norm_num), rfl⟩
      · exact ⟨(a4, 3), hq.mem_iff.2 (by norm_num), rfl⟩
    · intro ch hch4
      interval_cases ch
      · exact hs1.2
      · exact hs2.2
      · exact hs3.2
      · exact hs4.2
  have hlen : (⟨pqInsert (a4, 3) (pqInsert (a3, 2) (pqInsert (a2, 1)
        [(a1, 0)])), r1, r2, r3, r4, [], ⟨0, 0, 0, 0⟩,
        0⟩ : IndivSt).pending.length ≤
      r1.length + r2.length + r3.length + r4.length + 4 := by
    rw [hpendeq]
    simp only [List.length_append, tagCh, List.length_map, pqInsert_length,
      List.length_cons, List.length_nil]
    omega
  have hmain := indivLoop_eq_c4chLoop w
    (r1.length + r2.length + r3.length + r4.length + 4)
    ⟨pqInsert (a4, 3) (pqInsert (a3, 2) (pqInsert (a2, 1) [(a1, 0)])),
      r1, r2, r3, r4, [], ⟨0, 0, 0, 0⟩, 0⟩ evs hlen hinv hsort hpend
  have hloop : c4chLoop w evs [] ⟨0, 0, 0, 0⟩ 0 =
      c4Loop w (evs.map fun e => (e.1, 2 ^ e.2)) [] ⟨0, 0, 0, 0⟩ 0 := by
    rw [c4chLoop_eq_c4Loop w evs [] ⟨0, 0, 0, 0⟩ 0 hch
      (fun e he => absurd he (List.not_mem_nil e)), List.map_nil]
  have hzip : count_4coinc (evs.map Prod.fst)
      (evs.map fun e => 2 ^ e.2) w =
      c4Loop w (evs.map fun e => (e.1, 2 ^ e.2)) [] ⟨0, 0, 0, 0⟩ 0 := by
    rw [count_4coinc, List.zip_map']
  simp only [count_4coinc_indiv]
  exact congrArg some (hmain.trans (hloop.trans hzip.symm))

/-- Witness for `count_4coinc_indiv_eq_interleaved`. -/
theorem count_4coinc_indiv_eq_interleaved_witness :
    count_4coinc_indiv [5] [6] [7] [8] 10 =
      some (count_4coinc ([(5, 0), (6, 1), (7, 2), (8, 3)].map Prod.fst)
        ([(5, 0), (6, 1), (7, 2), (8, 3)].map fun e => 2 ^ e.2) 10) :=
  count_4coinc_indiv_eq_interleaved [5] [6] [7] [8] 10
    [(5, 0), (6, 1), (7, 2), (8, 3)] (by decide) (by decide) (by decide)
    (by decide) (by decide) (by decide) (by decide) (by decide) (by decide)
    (by decide)

/-! ### C3: `_cond_delta_loop` and its two scanning passes -/

/-- Innermost `for it_c in range(l_t3)` loop of pass A of
`_cond_delta_loop` (lines 77–88): `idx3` was just set and stays fixed
here; `idx4` and `histogram_cb` evolve.  The recursion counts the
remaining `range` iterations; reads are total via `getD` (every run
evaluated below stays in bounds). -/
def condInnerA (t3 : List ℚ) (a b maxR bw : ℚ) (lt3 idx3 : ℕ) :
    ℕ → ℕ → ℕ → List ℕ → ℕ × List ℕ
  | 0, _, idx4, hcb => (idx4, hcb)
  | fuel + 1, it_c, idx4, hcb =>
    if lt3 ≤ it_c + idx3 then (idx4, hcb)
    else
      let c := t3.getD (it_c + idx3) 0
      if c < a then
        condInnerA t3 a b maxR bw lt3 idx3 fuel (it_c + 1) (idx3 + it_c) hcb
      else
        let k := c - b
        if k < 0 ∨ maxR ≤ k then (idx4, hcb)
        else
          condInnerA t3 a b maxR bw lt3 idx3 fuel (it_c + 1) idx4
            (bump hcb (binIdx k bw))

/-- Middle `for it_b in range(l_t2)` loop of pass A (lines 68–92): `idx`
is fixed for the current `t1` element; on `b ≥ a` the code sets
`idx3 = idx4` and runs the inner `t3` loop.  Returns
`(idx2, idx3, idx4, histogram_ba, histogram_cb)`. -/
def condMidA (t2 t3 : List ℚ) (a maxR bw : ℚ) (lt2 lt3 idx : ℕ) :
    ℕ → ℕ → ℕ → ℕ → ℕ → List ℕ → List ℕ →
      ℕ × ℕ × ℕ × List ℕ × List ℕ
  | 0, _, idx2, idx3, idx4, hba, hcb => (idx2, idx3, idx4, hba, hcb)
  | fuel + 1, it_b, idx2, idx3, idx4, hba, hcb =>
    if lt2 ≤ it_b + idx then (idx2, idx3, idx4, hba, hcb)
    else
      let b := t2.getD (it_b + idx) 0
      if b < a then
        condMidA t2 t3 a maxR bw lt2 lt3 idx fuel (it_b + 1) (idx + it_b)
          idx3 idx4 hba hcb
      else
        let r := condInnerA t3 a b maxR bw lt3 idx4 lt3 0 idx4 hcb
        let k := b - a
        if maxR ≤ k then (idx2, idx4, r.1, hba, r.2)
        else
          condMidA t2 t3 a maxR bw lt2 lt3 idx fuel (it_b + 1) idx2 idx4 r.1
            (bump hba (binIdx k bw)) r.2

/-- Outer `for it_a in range(l_t1)` loop of pass A (lines 65–92): each
iteration sets `idx = idx2`. -/
def condOuterA (t1 t2 t3 : List ℚ) (maxR bw : ℚ) (lt2 lt3 : ℕ) :
    ℕ → ℕ → ℕ → ℕ → ℕ → List ℕ → List ℕ →
      ℕ × ℕ × ℕ × List ℕ × List ℕ
  | 0, _, idx2, idx3, idx4, hba, hcb => (idx2, idx3, idx4, hba, hcb)
  | fuel + 1, it_a, idx2, idx3, idx4, hba, hcb =>
    match condMidA t2 t3 (t1.getD it_a 0) maxR bw lt2 lt3 idx2 lt2 0 idx2
        idx3 idx4 hba hcb with
    | (i2, i3, i4, hba1, hcb1) =>
      condOuterA t1 t2 t3 maxR bw lt2 lt3 fuel (it_a + 1) i2 i3 i4 hba1 hcb1

/-- Pass A of `_cond_delta_loop` from the all-zero cursor state, returning
`(idx2, idx3, idx4, histogram_ba, histogram_cb)`. -/
def condPassA (t1 t2 t3 : List ℚ) (bins : ℕ) (bw : ℚ) :
    ℕ × ℕ × ℕ × List ℕ × List ℕ :=
  condOuterA t1 t2 t3 ((bins : ℚ) * bw) bw t2.length t3.length t1.length 0
    0 0 0 (List.replicate bins 0) (List.replicate bins 0)

/-- Innermost `for it_b in range(l_t2)` loop of pass B (lines 108–119):
the bound check uses the fixed `idx` (line 109) while the read uses `idx3`
(line 111), exactly as in the source. -/
def condInnerB (t2 : List ℚ) (a c maxR bw : ℚ) (lt2 idx idx3 : ℕ) :
    ℕ → ℕ → ℕ → List ℕ → ℕ × List ℕ
  | 0, _, idx4, hbc => (idx4, hbc)
  | fuel + 1, it_b, idx4, hbc =>
    if lt2 ≤ it_b + idx then (idx4, hbc)
    else
      let b := t2.getD (it_b + idx3) 0
      if b < a then
        condInnerB t2 a c maxR bw lt2 idx idx3 fuel (it_b + 1) (idx3 + it_b)
          hbc
      else
        let k := b - c
        if k < 0 ∨ maxR ≤ k then (idx4, hbc)
        else
          condInnerB t2 a c maxR bw lt2 idx idx3 fuel (it_b + 1) idx4
            (bump hbc (binIdx k bw))

/-- Middle `for it_c in range(l_t3)` loop of pass B (lines 99–123): the
bound check uses the mutable `idx3` (line 100) while the read uses the
fixed `idx` (line 102), exactly as in the source; on `c ≥ a` the code sets
`idx3 = idx4` and runs the inner `t2` loop. -/
def condMidB (t2 t3 : List ℚ) (a maxR bw : ℚ) (lt2 lt3 idx : ℕ) :
    ℕ → ℕ → ℕ → ℕ → ℕ → List ℕ → List ℕ →
      ℕ × ℕ × ℕ × List ℕ × List ℕ
  | 0, _, idx2, idx3, idx4, hca, hbc => (idx2, idx3, idx4, hca, hbc)
  | fuel + 1, it_c, idx2, idx3, idx4, hca, hbc =>
    if lt3 ≤ it_c + idx3 then (idx2, idx3, idx4, hca, hbc)
    else
      let c := t3.getD (it_c + idx) 0
      if c < a then
        condMidB t2 t3 a maxR bw lt2 lt3 idx fuel (it_c + 1) (idx + it_c)
          idx3 idx4 hca hbc
      else
        let r := condInnerB t2 a c maxR bw lt2 idx idx4 lt2 0 idx4 hbc
        let k := c - a
        if maxR ≤ k then (idx2, idx4, r.1, hca, r.2)
        else
          condMidB t2 t3 a maxR bw lt2 lt3 idx fuel (it_c + 1) idx2 idx4 r.1
            (bump hca (binIdx k bw)) r.2

/-- Outer `for it_a in range(l_t1)` loop of pass B (lines 96–123). -/
def condOuterB (t1 t2 t3 : List ℚ) (maxR bw : ℚ) (lt2 lt3 : ℕ) :
    ℕ → ℕ → ℕ → ℕ → ℕ → List ℕ → List ℕ →
      ℕ × ℕ × ℕ × List ℕ × List ℕ
  | 0, _, idx2, idx3, idx4, hca, hbc => (idx2, idx3, idx4, hca, hbc)
  | fuel + 1, it_a, idx2, idx3, idx4, hca, hbc =>
    match condMidB t2 t3 (t1.getD it_a 0) maxR bw lt2 lt3 idx2 lt3 0 idx2
        idx3 idx4 hca hbc with
    | (i2, i3, i4, hca1, hbc1) =>
      condOuterB t1 t2 t3 maxR bw lt2 lt3 fuel (it_a + 1) i2 i3 i4 hca1 hbc1

/-- `_cond_delta_loop(t1, t2, t3, bins, bin_width, l_t1, l_t2, l_t3)`:
pass A from the all-zero cursors, then pass B with `idx2` and `idx4` reset
to `0` (lines 94–95) but `idx3` carried over *stale* from pass A (it is
not reset); returns `(histogram_ba, histogram_ca, histogram_cb,
histogram_bc)` as on line 124. -/
def _cond_delta_loop (t1 t2 t3 : List ℚ) (bins : ℕ) (bw : ℚ) :
    List ℕ × List ℕ × List ℕ × List ℕ :=
  match condPassA t1 t2 t3 bins bw with
  | (_, i3, _, hba, hcb) =>
    match condOuterB t1 t2 t3 ((bins : ℚ) * bw) bw t2.length t3.length
        t1.length 0 0 i3 0 (List.replicate bins 0)
        (List.replicate bins 0) with
    | (_, _, _, hca, hbc) => (hba, hca, hcb, hbc)

/-- **C3, counterexample.**  Pass B neither starts from freshly
initialized cursors nor mirrors pass A.  On the ascending inputs
`t1 = [10]`, `t2 = [10, 11]`, `t3 = [0, 1, 13]` with `bins = 5`,
`bin_width = 2`: pass A leaves `idx3 = 1` and only `idx2`, `idx4` are
reset before pass B, so pass B inherits the stale cursor; its
`histogram_ca` comes out all-zero, while pass A run on the swapped inputs
`(t1, t3, t2)` — the mirror the claim asserts — puts one count in bin 1 of
its `histogram_ba`.  (All array reads of both evaluated runs are in
bounds, so the `getD`-total embedding coincides with the source here.) -/
theorem cond_delta_loop_pass_asymmetry :
    (condPassA [(10 : ℚ)] [10, 11] [0, 1, 13] 5 2).2.1 = 1 ∧
      (_cond_delta_loop [(10 : ℚ)] [10, 11] [0, 1, 13] 5 2).2.1 =
        [0, 0, 0, 0, 0] ∧
      (condPassA [(10 : ℚ)] [0, 1, 13] [10, 11] 5 2).2.2.2.1 =
        [0, 1, 0, 0, 0] ∧
      ¬((_cond_delta_loop [(10 : ℚ)] [10, 11] [0, 1, 13] 5 2).2.1 =
        (condPassA [(10 : ℚ)] [0, 1, 13] [10, 11] 5 2).2.2.2.1) := by
  have hfull : _cond_delta_loop [(10 : ℚ)] [10, 11] [0, 1, 13] 5 2 =
      ([2, 0, 0, 0, 0], [0, 0, 0, 0, 0], [0, 2, 0, 0, 0],
        [0, 0, 0, 0, 0]) := by
    norm_num [_cond_delta_loop, condPassA, condOuterA, condMidA, condInnerA,
      condOuterB, condMidB, condInnerB, bump, binIdx, binIdxZ,
      List.replicate]
  have hmirror : condPassA [(10 : ℚ)] [0, 1, 13] [10, 11] 5 2 =
      (1, 0, 0, [0, 1, 0, 0, 0], [0, 0, 0, 0, 0]) := by
    norm_num [condPassA, condOuterA, condMidA, condInnerA, bump, binIdx,
      binIdxZ, List.replicate]
  have hstale : condPassA [(10 : ℚ)] [10, 11] [0, 1, 13] 5 2 =
      (0, 1, 1, [2, 0, 0, 0, 0], [0, 2, 0, 0, 0]) := by
    norm_num [condPassA, condOuterA, condMidA, condInnerA, bump, binIdx,
      binIdxZ, List.replicate]
  exact ⟨by rw [hstale], by rw [hfull], by rw [hmirror],
    by rw [hfull, hmirror]; decide⟩

end PyS15
